import Mathlib

/-!
Shallow embedding of `ipa_uk/__init__.py`, a Ukrainian Cyrillic → IPA
transcription pipeline built from a fixed ordered sequence of `re.sub`
passes over one working string per token.

Buffers are `List Char` (the Python `str` as a list of Unicode scalar
values).  Every regular expression of the source is embedded as an explicit
matcher over a character list, and the leftmost, non-overlapping scan of
Python's `re.sub` is the `rewriteAux` combinator below.  All definitions
are executable; concrete claims are settled by kernel evaluation.
-/

namespace IpaUk

/-- Working buffer: the Python `str` as a list of Unicode scalar values. -/
abbrev Buf := List Char

/-- Leftmost non-overlapping rewriting: the semantics of Python `re.sub`.
A matcher `f` inspects a suffix of the buffer; `f l = some (n, r)` means
the pattern matches a prefix of `l` of length `n + 1` (so always at least
one character), to be replaced by `r`.  Scanning resumes after the matched
portion of the original buffer, exactly as `re.sub` does.  The fuel
argument only serves termination; `rewrite` supplies enough of it. -/
def rewriteAux (f : Buf → Option (Nat × Buf)) : Buf → Nat → Buf
  | l, 0 => l
  | [], _ + 1 => []
  | c :: rest, fuel + 1 =>
    match f (c :: rest) with
    | some (n, r) => r ++ rewriteAux f (rest.drop n) fuel
    | none => c :: rewriteAux f rest fuel

/-- Run one `re.sub` pass over the whole buffer. -/
def rewrite (f : Buf → Option (Nat × Buf)) (l : Buf) : Buf :=
  rewriteAux f l l.length

theorem rewriteAux_nil (f : Buf → Option (Nat × Buf)) (fuel : Nat) :
    rewriteAux f [] fuel = [] := by
  cases fuel <;> rfl

theorem rewriteAux_zero (f : Buf → Option (Nat × Buf)) (l : Buf) :
    rewriteAux f l 0 = l := by
  cases l <;> rfl

theorem rewriteAux_cons (f : Buf → Option (Nat × Buf)) (c : Char) (rest : Buf) (fuel : Nat) :
    rewriteAux f (c :: rest) (fuel + 1) =
      match f (c :: rest) with
      | some (n, r) => r ++ rewriteAux f (rest.drop n) fuel
      | none => c :: rewriteAux f rest fuel := rfl

theorem rewriteAux_fuel_eq (f : Buf → Option (Nat × Buf)) :
    ∀ (fuel₁ fuel₂ : Nat) (l : Buf), l.length ≤ fuel₁ → l.length ≤ fuel₂ →
      rewriteAux f l fuel₁ = rewriteAux f l fuel₂ := by
  intro fuel₁
  induction fuel₁ with
  | zero =>
    intro fuel₂ l h1 _
    have hl : l = [] := by cases l <;> simp_all
    subst hl
    simp [rewriteAux_nil]
  | succ n ih =>
    intro fuel₂ l h1 h2
    cases l with
    | nil => simp [rewriteAux_nil]
    | cons c rest =>
      cases fuel₂ with
      | zero => simp at h2
      | succ m =>
        rw [rewriteAux_cons, rewriteAux_cons]
        cases hf : f (c :: rest) with
        | none =>
          simp only []
          rw [ih m rest (by simp at h1; omega) (by simp at h2; omega)]
        | some p =>
          obtain ⟨k, r⟩ := p
          simp only []
          rw [ih m (rest.drop k) (by simp [List.length_drop] at *; omega)
            (by simp [List.length_drop] at *; omega)]

theorem mem_rewriteAux {f : Buf → Option (Nat × Buf)} {E : Buf}
    (hf : ∀ l n r, f l = some (n, r) → ∀ c ∈ r, c ∈ l ∨ c ∈ E) :
    ∀ (fuel : Nat) (l : Buf) (c : Char), c ∈ rewriteAux f l fuel → c ∈ l ∨ c ∈ E := by
  intro fuel
  induction fuel with
  | zero => intro l c h; rw [rewriteAux_zero] at h; exact Or.inl h
  | succ n ih =>
    intro l c h
    cases l with
    | nil => simp [rewriteAux_nil] at h
    | cons d rest =>
      rw [rewriteAux_cons] at h
      cases hf' : f (d :: rest) with
      | none =>
        rw [hf'] at h
        simp only [List.mem_cons] at h
        rcases h with h | h
        · exact Or.inl (by simp [h])
        · rcases ih rest c h with h | h
          · exact Or.inl (List.mem_cons_of_mem _ h)
          · exact Or.inr h
      | some p =>
        obtain ⟨k, r⟩ := p
        rw [hf'] at h
        rcases List.mem_append.mp h with h | h
        · exact hf _ _ _ hf' c h
        · rcases ih _ c h with h | h
          · exact Or.inl (List.mem_cons_of_mem _ (List.drop_subset _ _ h))
          · exact Or.inr h

/-- Characters of a pass's output come from the input or from the pass's
replacement alphabet; hence a pass introduces no new marker characters. -/
theorem not_mem_rewrite {f : Buf → Option (Nat × Buf)} {E : Buf}
    (hf : ∀ l n r, f l = some (n, r) → ∀ c ∈ r, c ∈ l ∨ c ∈ E)
    {x : Char} {l : Buf} (hl : x ∉ l) (hE : x ∉ E) :
    x ∉ rewrite f l := by
  intro h
  rcases mem_rewriteAux hf _ _ _ h with h | h
  · exact hl h
  · exact hE h

/-- A pass whose matcher fires on every occurrence of `x` and never writes
`x` back removes every `x` from the buffer. -/
theorem not_mem_rewriteAux_removed {f : Buf → Option (Nat × Buf)} {x : Char}
    (h1 : ∀ l n r, f l = some (n, r) → x ∉ r)
    (h2 : ∀ rest, f (x :: rest) ≠ none) :
    ∀ (fuel : Nat) (l : Buf), l.length ≤ fuel → x ∉ rewriteAux f l fuel := by
  intro fuel
  induction fuel with
  | zero =>
    intro l h
    have hl : l = [] := by cases l <;> simp_all
    subst hl
    simp [rewriteAux_zero]
  | succ n ih =>
    intro l hlen h
    cases l with
    | nil => simp [rewriteAux_nil] at h
    | cons d rest =>
      rw [rewriteAux_cons] at h
      cases hf' : f (d :: rest) with
      | none =>
        rw [hf'] at h
        simp only [List.mem_cons] at h
        rcases h with h | h
        · subst h; exact h2 rest hf'
        · exact ih rest (by simp at hlen; omega) h
      | some p =>
        obtain ⟨k, r⟩ := p
        rw [hf'] at h
        rcases List.mem_append.mp h with h | h
        · exact h1 _ _ _ hf' h
        · exact ih _ (by simp [List.length_drop] at *; omega) h

theorem not_mem_rewrite_removed {f : Buf → Option (Nat × Buf)} {x : Char}
    (h1 : ∀ l n r, f l = some (n, r) → x ∉ r)
    (h2 : ∀ rest, f (x :: rest) ≠ none) (l : Buf) :
    x ∉ rewrite f l :=
  not_mem_rewriteAux_removed h1 h2 _ l le_rfl

/-! ## Literal rules

Most table entries of the source are plain literal substitutions
(`re.sub` with a pattern free of metacharacters).  The Python `dict`s keep
insertion order, so a table is an ordered list of key/value pairs, applied
as successive full passes. -/

/-- Matcher of a literal substitution `key → val`. -/
def litM (key val : Buf) (l : Buf) : Option (Nat × Buf) :=
  if key.isPrefixOf l ∧ key ≠ [] then some (key.length - 1, val) else none

/-- One literal `re.sub` pass. -/
def litPass (key val : Buf) (l : Buf) : Buf :=
  rewrite (litM key val) l

/-- Apply an ordered table of literal rules, one full pass per rule, in
table order (Python iterates `dict.items()` in insertion order). -/
def tablePass (rules : List (Buf × Buf)) (l : Buf) : Buf :=
  rules.foldl (fun b r => litPass r.1 r.2 b) l

theorem litM_some {key val l : Buf} {n : Nat} {r : Buf}
    (h : litM key val l = some (n, r)) : r = val := by
  unfold litM at h
  split at h
  · cases h; rfl
  · exact absurd h (by simp)

theorem not_mem_litPass {x : Char} {key val l : Buf}
    (hl : x ∉ l) (hv : x ∉ val) : x ∉ litPass key val l := by
  refine not_mem_rewrite (E := val) ?_ hl hv
  intro l' n r h c hc
  exact Or.inr (litM_some h ▸ hc)

theorem not_mem_tablePass {x : Char} {rules : List (Buf × Buf)}
    (hr : ∀ p ∈ rules, x ∉ p.2) :
    ∀ {l : Buf}, x ∉ l → x ∉ tablePass rules l := by
  induction rules with
  | nil => intro l hl; exact hl
  | cons p ps ih =>
    intro l hl
    have h1 : x ∉ litPass p.1 p.2 l :=
      not_mem_litPass hl (hr p (List.mem_cons_self _ _))
    exact ih (fun q hq => hr q (List.mem_cons_of_mem _ hq)) h1

/-- A single-character literal rule whose value avoids that character
removes every occurrence of it. -/
theorem not_mem_litPass_removed {x : Char} {val : Buf}
    (hv : x ∉ val) (l : Buf) : x ∉ litPass [x] val l := by
  refine not_mem_rewrite_removed ?_ ?_ l
  · intro l' n r h
    exact litM_some h ▸ hv
  · intro rest h
    unfold litM at h
    simp [List.isPrefixOf] at h

/-! ## Character constants and classes

All class strings are transcribed character by character from the source
(`vowel_no_i`, `consonant_no_w`, `consonant`, `palatalizable`,
`voiced_obstruent`, stress marks, the `⁀` monosyllabic marker, the `#`
boundary sentinel and the `%` apostrophe placeholder).  Note that the
source's `consonant` string contains the two code points of `β̞`
separately, and `perm_syl_onset` uses ASCII `g` (U+0067) although the
phoneme mapper emits IPA `ɡ` (U+0261); both are kept verbatim. -/

def ACUTE : Char := '́'

def GRAVE : Char := '̀'

/-- Tie bar U+0361 of the affricates `t͡s`, `d͡ʒ`, … -/
def tie : Char := '͡'

/-- Inverted breve below U+032F of the glides `u̯`, `i̯`. -/
def breve : Char := '̯'

/-- Down tack U+031E, second code point of `β̞` in the consonant class. -/
def downTack : Char := '̞'

/-- ASCII apostrophe U+0027. -/
def apos : Char := Char.ofNat 39

/-- Python source: `vowel = "aɛɪuɔɐoʊe" + "i"`. -/
def vowel : Buf := ['a', 'ɛ', 'ɪ', 'u', 'ɔ', 'ɐ', 'o', 'ʊ', 'e', 'i']

/-- The five-vowel class `[aɛiɪuɔ]` used for stress placement and the
monosyllabic check. -/
def vowel6 : Buf := ['a', 'ɛ', 'i', 'ɪ', 'u', 'ɔ']

/-- Python source: `consonant_no_w = "bdzʒɡɦmnlrpftskxʃj"`. -/
def consonant_no_w : Buf :=
  ['b', 'd', 'z', 'ʒ', 'ɡ', 'ɦ', 'm', 'n', 'l', 'r', 'p', 'f', 't', 's', 'k', 'x', 'ʃ', 'j']

/-- Python source: `consonant = consonant_no_w + "ʋβ̞wʍ"` (the two code
points of `β̞` enter the character class separately). -/
def consonant : Buf := consonant_no_w ++ ['ʋ', 'β', downTack, 'w', 'ʍ']

/-- Python source: `palatalizable = "tdsznlrbpʋfɡmkɦxʃʒ"`. -/
def palatalizable : Buf :=
  ['t', 'd', 's', 'z', 'n', 'l', 'r', 'b', 'p', 'ʋ', 'f', 'ɡ', 'm', 'k', 'ɦ', 'x', 'ʃ', 'ʒ']

/-- Python source: `voiced_obstruent = r"[bdzʒɡɦ]"`. -/
def voiced_obstruent : Buf := ['b', 'd', 'z', 'ʒ', 'ɡ', 'ɦ']

/-- The two stress marks `ˈ`, `ˌ` produced by the phoneme mapper. -/
def stressChars : Buf := ['ˈ', 'ˌ']

/-- Stress marks together with the internal monosyllabic marker `⁀`. -/
def stress3 : Buf := ['ˈ', 'ˌ', '⁀']

/-- Vowel letters counted by the accent check: `[аеєиіїоуюя]`. -/
def cyrVowels : Buf := ['а', 'е', 'є', 'и', 'і', 'ї', 'о', 'у', 'ю', 'я']

/-- Python source: `perm_syl_onset`, the Permissible Onset Set (transcribed
byte for byte; `gr`/`gl` use ASCII `g`). -/
def perm_syl_onset : List Buf :=
  [['s', 'p', 'r'], ['s', 't', 'r'], ['s', 'k', 'r'], ['s', 'p', 'l'], ['s', 'k', 'l'],
   ['s', 'p'], ['s', 't'], ['s', 'k'], ['s', 'f'], ['s', 'x'],
   ['p', 'r'], ['b', 'r'], ['t', 'r'], ['d', 'r'], ['k', 'r'], ['g', 'r'], ['ɦ', 'r'],
   ['f', 'r'], ['x', 'r'],
   ['p', 'l'], ['b', 'l'], ['k', 'l'], ['g', 'l'], ['ɦ', 'l'], ['f', 'l'], ['x', 'l']]

/-! ## Input normalisation

`decompose_grave` rewrites the four precomposed grave-accented Cyrillic
letters; Python's `str.lower()` is modelled on the Basic Latin and Cyrillic
ranges the program works with (identity elsewhere); `re.sub(r"\s+", " ")`
collapses whitespace runs. -/

/-- Per-character decomposition table of `grave_decomposer`. -/
def grave_decomposer (c : Char) : Buf :=
  if c = 'ѐ' then ['е', GRAVE]
  else if c = 'Ѐ' then ['Е', GRAVE]
  else if c = 'ѝ' then ['и', GRAVE]
  else if c = 'Ѝ' then ['И', GRAVE]
  else [c]

/-- Python source: `decompose_grave`, decomposing precomposed Cyrillic
letters with a grave accent. -/
def decompose_grave (l : Buf) : Buf :=
  l.flatMap grave_decomposer

/-- Lowercase mapping of Python's `str.lower()`, modelled on ASCII A–Z and
the Cyrillic block U+0400–U+042F (the ranges this program can meet);
characters outside the table are unchanged. -/
def lowerPairs : List (Char × Char) :=
  [('A', 'a'), ('B', 'b'), ('C', 'c'), ('D', 'd'), ('E', 'e'), ('F', 'f'), ('G', 'g'),
   ('H', 'h'), ('I', 'i'), ('J', 'j'), ('K', 'k'), ('L', 'l'), ('M', 'm'), ('N', 'n'),
   ('O', 'o'), ('P', 'p'), ('Q', 'q'), ('R', 'r'), ('S', 's'), ('T', 't'), ('U', 'u'),
   ('V', 'v'), ('W', 'w'), ('X', 'x'), ('Y', 'y'), ('Z', 'z'),
   ('Ѐ', 'ѐ'), ('Ё', 'ё'), ('Ђ', 'ђ'), ('Ѓ', 'ѓ'), ('Є', 'є'), ('Ѕ', 'ѕ'), ('І', 'і'),
   ('Ї', 'ї'), ('Ј', 'ј'), ('Љ', 'љ'), ('Њ', 'њ'), ('Ћ', 'ћ'), ('Ќ', 'ќ'), ('Ѝ', 'ѝ'),
   ('Ў', 'ў'), ('Џ', 'џ'),
   ('А', 'а'), ('Б', 'б'), ('В', 'в'), ('Г', 'г'), ('Д', 'д'), ('Е', 'е'), ('Ж', 'ж'),
   ('З', 'з'), ('И', 'и'), ('Й', 'й'), ('К', 'к'), ('Л', 'л'), ('М', 'м'), ('Н', 'н'),
   ('О', 'о'), ('П', 'п'), ('Р', 'р'), ('С', 'с'), ('Т', 'т'), ('У', 'у'), ('Ф', 'ф'),
   ('Х', 'х'), ('Ц', 'ц'), ('Ч', 'ч'), ('Ш', 'ш'), ('Щ', 'щ'), ('Ъ', 'ъ'), ('Ы', 'ы'),
   ('Ь', 'ь'), ('Э', 'э'), ('Ю', 'ю'), ('Я', 'я'), ('Ґ', 'ґ')]

def lowerChar (c : Char) : Char :=
  (lowerPairs.lookup c).getD c

/-- Whitespace characters matched by Python's `\s` in Unicode mode. -/
def pySpace : Buf :=   ['\u0009', '\u000A', '\u000B', '\u000C', '\u000D', '\u001C', '\u001D',
   '\u001E', '\u001F', '\u0020', '\u0085', '\u00A0', '\u1680', '\u2000', '\u2001', '\u2002',
   '\u2003', '\u2004', '\u2005', '\u2006', '\u2007', '\u2008', '\u2009', '\u200A', '\u2028',
   '\u2029', '\u202F', '\u205F', '\u3000']

def isPySpace (c : Char) : Bool :=
  decide (c ∈ pySpace)

/-- Replace each maximal whitespace run by a single space, the effect of
`re.sub(r"\s+", " ", text)`.  The boolean records whether the previous
character was whitespace. -/
def collapseAux : Bool → Buf → Buf
  | _, [] => []
  | prev, c :: rest =>
    if isPySpace c then
      if prev then collapseAux true rest else ' ' :: collapseAux true rest
    else c :: collapseAux false rest

def collapseSpaces (l : Buf) : Buf :=
  collapseAux false l

/-- Separator class of `re.split(r"[\s\-]+", text)`. -/
def isSep (c : Char) : Bool :=
  isPySpace c || c = '-'

/-- Tokenisation by `re.split(r"[\s\-]+", text)`: maximal separator runs
split the text, and a leading or trailing separator contributes an empty
token, as Python's `re.split` does. -/
def splitAux : Nat → Buf → List Buf
  | 0, l => [l.takeWhile (fun c => !isSep c)]
  | fuel + 1, l =>
    let tok := l.takeWhile (fun c => !isSep c)
    match l.dropWhile (fun c => !isSep c) with
    | [] => [tok]
    | c :: rest => tok :: splitAux fuel ((c :: rest).dropWhile isSep)

def splitTokens (l : Buf) : List Buf :=
  splitAux l.length l

/-- Join per-token results with single spaces (`" ".join(pronuns)`). -/
def joinSpace : List Buf → Buf
  | [] => []
  | [b] => b
  | b :: bs => b ++ ' ' :: joinSpace bs

/-! ## Matchers for the non-literal regexes

Each matcher embeds one `re.sub` pattern of the source, including the
backtracking order of Python's regex engine where optional or repeated
pieces occur (greedy, longest first). -/

/-- Optional single character from a class (a greedy `[...]?` group):
returns the consumed group and the remaining suffix. -/
def optChar (cs : Buf) (l : Buf) : Buf × Buf :=
  match l with
  | c :: rest => if c ∈ cs then ([c], rest) else ([], l)
  | [] => ([], l)

/-- Largest `k` with `1 ≤ k ≤ bound` satisfying `p` (the search order of a
greedy group, longest candidate first). -/
def descFind (p : Nat → Bool) : Nat → Option Nat
  | 0 => none
  | k + 1 => if p (k + 1) then some (k + 1) else descFind p k

/-- Largest `k` with `1 ≤ k ≤ bound` on which `p` yields a value. -/
def descFindP {α : Type} (p : Nat → Option α) : Nat → Option (Nat × α)
  | 0 => none
  | k + 1 =>
    match p (k + 1) with
    | some a => some (k + 1, a)
    | none => descFindP p k

/-- Remap the orthographic apostrophe to the placeholder `%`
(`re.sub("'", "%", phonetic)`). -/
def aposM (l : Buf) : Option (Nat × Buf) :=
  match l with
  | c :: _ => if c = apos then some (0, ['%']) else none
  | [] => none

/-- Gemination of voiced stops: `([бвгґд])\1 → \1ː`. -/
def gemBM (l : Buf) : Option (Nat × Buf) :=
  match l with
  | c :: d :: _ =>
    if c ∈ (['б', 'в', 'г', 'ґ', 'д'] : Buf) ∧ d = c then some (1, [c, 'ː']) else none
  | _ => none

/-- Gemination of the remaining consonant letters:
`([йклмнпрстфхцчшщ])\1 → \1ː`. -/
def gemJKM (l : Buf) : Option (Nat × Buf) :=
  match l with
  | c :: d :: _ =>
    if c ∈ (['й', 'к', 'л', 'м', 'н', 'п', 'р', 'с', 'т', 'ф', 'х', 'ц', 'ч', 'ш', 'щ'] : Buf)
        ∧ d = c then
      some (1, [c, 'ː'])
    else none
  | _ => none

/-- Doubled letter after a run: `([^д]+)chch → \1chː` (used for `жж` and
`зз`).  The greedy group takes the largest `k` such that the first `k`
characters avoid `д` and are followed by the doubled letter. -/
def doubleAfterRunM (ch : Char) (l : Buf) : Option (Nat × Buf) :=
  match descFind
      (fun k =>
        match l.drop k with
        | a :: b :: _ => decide (a = ch ∧ b = ch)
        | _ => false)
      ((l.takeWhile (fun c => c ≠ 'д')).length) with
  | some k => some (k + 1, l.take k ++ [ch, 'ː'])
  | none => none

/-- Move a stress mark before its vowel: `([aɛiɪuɔ])([ˈˌ]) → \2\1`. -/
def stressSwapM (l : Buf) : Option (Nat × Buf) :=
  match l with
  | v :: s :: _ => if v ∈ vowel6 ∧ s ∈ stressChars then some (1, [s, v]) else none
  | _ => none

/-- Insert the monosyllabic marker: `([aɛiɪuɔ]) → ⁀\1`. -/
def monoM (l : Buf) : Option (Nat × Buf) :=
  match l with
  | v :: _ => if v ∈ vowel6 then some (0, ['⁀', v]) else none
  | [] => none

/-- Palatalization before `i`: `(P)([ː]?)([ˈˌ⁀]?)i → \1ʲ\2\3i`. -/
def palatIM (l : Buf) : Option (Nat × Buf) :=
  match l with
  | p :: rest =>
    if p ∈ palatalizable then
      match (optChar stress3 (optChar ['ː'] rest).2).2 with
      | 'i' :: _ =>
        some ((optChar ['ː'] rest).1.length +
            (optChar stress3 (optChar ['ː'] rest).2).1.length + 1,
          p :: 'ʲ' :: ((optChar ['ː'] rest).1 ++
            (optChar stress3 (optChar ['ː'] rest).2).1 ++ ['i']))
      | _ => none
    else none
  | [] => none

/-- Palatalization absorbing `j`: `(P)([ː]?)j → \1ʲ\2`. -/
def palatJM (l : Buf) : Option (Nat × Buf) :=
  match l with
  | p :: rest =>
    if p ∈ palatalizable then
      match (optChar ['ː'] rest).2 with
      | 'j' :: _ =>
        some ((optChar ['ː'] rest).1.length + 1, p :: 'ʲ' :: (optChar ['ː'] rest).1)
      | _ => none
    else none
  | [] => none

/-- Cluster rule `st͡sʲ([ː]?) → sʲt͡sʲ` (a matched length mark is
dropped, since the replacement does not reference the group). -/
def stsjM (l : Buf) : Option (Nat × Buf) :=
  if (['s', 't', tie, 's', 'ʲ'] : Buf).isPrefixOf l then
    some (4 + (optChar ['ː'] (l.drop 5)).1.length, ['s', 'ʲ', 't', tie, 's', 'ʲ'])
  else none

/-- Greedy run of voiced obstruents. -/
def obsRun (l : Buf) : Buf :=
  l.takeWhile (fun c => decide (c ∈ voiced_obstruent))

/-- Voicing assimilation for one table entry:
`key([bdzʒɡɦ]+) → val\1` with a greedy run of voiced obstruents. -/
def voicingM (key val : Buf) (l : Buf) : Option (Nat × Buf) :=
  if key.isPrefixOf l ∧ key ≠ [] then
    if 1 ≤ (obsRun (l.drop key.length)).length then
      some (key.length + (obsRun (l.drop key.length)).length - 1,
        val ++ obsRun (l.drop key.length))
    else none
  else none

/-- Python source: the `voicing` table, in dictionary (insertion) order. -/
def voicing : List (Buf × Buf) :=
  [("p".data, "b".data), ("f".data, "v".data), ("t".data, "d".data),
   ("tʲ".data, "dʲ".data), ("s".data, "z".data), ("sʲ".data, "zʲ".data),
   ("ʃ".data, "ʒ".data), ("k".data, "ɡ".data), ("x".data, "ɦ".data),
   ("t͡s".data, "d͡z".data), ("t͡sʲ".data, "d͡zʲ".data),
   ("t͡ʃ".data, "d͡ʒ".data), ("ʃt͡ʃ".data, "ʒd͡ʒ".data)]

/-- The voicing pass: one full `re.sub` per table entry, in table order. -/
def voicingFold (rules : List (Buf × Buf)) (l : Buf) : Buf :=
  rules.foldl (fun b r => rewrite (voicingM r.1 r.2) b) l

/-- Dental set `[tdsznl]` of the softening rules. -/
def dentals : Buf := ['t', 'd', 's', 'z', 'n', 'l']

/-- Softness spreading `([tdsznl])(.)ʲ → \1ʲ\2ʲ` (the dot matches any
character except a newline). -/
def softDotM (l : Buf) : Option (Nat × Buf) :=
  match l with
  | c :: d :: 'ʲ' :: _ =>
    if c ∈ dentals ∧ d ≠ '\n' then some (2, [c, 'ʲ', d, 'ʲ']) else none
  | _ => none

/-- Softness spreading onto a soft affricate: `([tdsznl])key → \1ʲkey`
(used with `t͡sʲ` and `d͡zʲ`). -/
def softAffLitM (key : Buf) (l : Buf) : Option (Nat × Buf) :=
  match l with
  | c :: rest =>
    if c ∈ dentals ∧ key.isPrefixOf rest then some (key.length, c :: 'ʲ' :: key) else none
  | [] => none

/-- Softness spreading from an affricate: `pre(.)ʲ → preʲ\1ʲ` (used with
`t͡s` and `d͡z`). -/
def affDotM (pre : Buf) (l : Buf) : Option (Nat × Buf) :=
  if pre.isPrefixOf l then
    match l.drop pre.length with
    | d :: 'ʲ' :: _ =>
      if d ≠ '\n' then some (pre.length + 1, pre ++ 'ʲ' :: d :: ['ʲ']) else none
    | _ => none
  else none

/-- Membership test of the negated class `[^aɛiɪuɔ]`. -/
def notV6 (c : Char) : Bool := decide (c ∉ vowel6)

/-- Does the character at index `k` equal `ʲ`? -/
def jAt (l : Buf) (k : Nat) : Bool := decide (l[k]? = some 'ʲ')

/-- Length of the maximal `[^aɛiɪuɔ]` run at the head of the suffix. -/
def runV6 (l : Buf) : Nat := (l.takeWhile notV6).length

/-- Excessive palatalization cleanup
`([^aɛiɪuɔ]+)ʲ([^aɛiɪuɔ]+)ʲ([^aɛiɪuɔ]+)ʲ → \1\2ʲ\3ʲ`, with the regex
engine's backtracking order: each greedy group prefers the longest
candidate, outer groups first. -/
def exPalG3 (l : Buf) : Option Nat :=
  descFind (fun k => jAt l k) (runV6 l)

def exPalG23 (l : Buf) : Option (Nat × Nat) :=
  descFindP (fun k => if jAt l k then exPalG3 (l.drop (k + 1)) else none) (runV6 l)

def exPalM (l : Buf) : Option (Nat × Buf) :=
  match descFindP (fun k => if jAt l k then exPalG23 (l.drop (k + 1)) else none) (runV6 l) with
  | some (k1, (k2, k3)) =>
    some (k1 + k2 + k3 + 2,
      l.take k1 ++ (l.drop (k1 + 1)).take k2 ++
        'ʲ' :: ((((l.drop (k1 + 1)).drop (k2 + 1)).take k3) ++ ['ʲ']))
  | none => none

/-- Vowel reduction `([^ˈˌ⁀])t → \1t'` (used for `a → ɐ`, `u → ʊ` and
`ɛ → e`). -/
def redM (t t' : Char) (l : Buf) : Option (Nat × Buf) :=
  match l with
  | c :: d :: _ => if c ∉ stress3 ∧ d = t then some (1, [c, t']) else none
  | _ => none

/-- Character class of the `ɔ` assimilation rule
`[bdzʒɡɦmnlrpftskxʲʃ͡]`; note it contains `ʲ` and the tie bar but not the
length mark `ː`. -/
def oCls : Buf :=
  ['b', 'd', 'z', 'ʒ', 'ɡ', 'ɦ', 'm', 'n', 'l', 'r', 'p', 'f', 't', 's', 'k', 'x', 'ʲ',
   'ʃ', tie]

/-- Stressed vowels triggering the `ɔ` assimilation: `[uiʊ]`. -/
def oTargets : Buf := ['u', 'i', 'ʊ']

/-- Greedy run of the `ɔ` assimilation rule's class at the head of a
suffix. -/
def oRun (rest : Buf) : Buf := rest.takeWhile (fun c => decide (c ∈ oCls))

/-- Assimilation `ɔ([bdzʒɡɦmnlrpftskxʲʃ͡]+)([ˈˌ⁀][uiʊ]) → o\1\2`. -/
def oM (l : Buf) : Option (Nat × Buf) :=
  match l with
  | c :: rest =>
    if c = 'ɔ' then
      match rest.drop (oRun rest).length with
      | st :: v :: _ =>
        if 1 ≤ (oRun rest).length ∧ st ∈ stress3 ∧ v ∈ oTargets then
          some ((oRun rest).length + 2, 'o' :: (oRun rest ++ [st, v]))
        else none
      | _ => none
    else none
  | [] => none

/-- Coda allophone of `ʋ`: `(V)ʋ([consonant_no_w#]) → \1u̯\2`. -/
def vCodaM (l : Buf) : Option (Nat × Buf) :=
  match l with
  | a :: 'ʋ' :: c :: _ =>
    if a ∈ vowel ∧ (c ∈ consonant_no_w ∨ c = '#') then some (2, [a, 'u', breve, c]) else none
  | _ => none

/-- Class of `w`-triggering continuations `[ɔuoʊbdzʒɡɦmnlr]`. -/
def vwCls : Buf := ['ɔ', 'u', 'o', 'ʊ', 'b', 'd', 'z', 'ʒ', 'ɡ', 'ɦ', 'm', 'n', 'l', 'r']

/-- Allophone `ʋ([ˈˌ]?[ɔuoʊbdzʒɡɦmnlr]) → w\1`. -/
def vwM (l : Buf) : Option (Nat × Buf) :=
  match l with
  | 'ʋ' :: rest =>
    match (optChar stressChars rest).2 with
    | c :: _ =>
      if c ∈ vwCls then
        some ((optChar stressChars rest).1.length + 1,
          'w' :: ((optChar stressChars rest).1 ++ [c]))
      else none
    | [] => none
  | _ => none

/-- Allophone `ʋ([pftskxʃ]) → ʍ\1`. -/
def vhM (l : Buf) : Option (Nat × Buf) :=
  match l with
  | 'ʋ' :: c :: _ =>
    if c ∈ (['p', 'f', 't', 's', 'k', 'x', 'ʃ'] : Buf) then some (1, ['ʍ', c]) else none
  | _ => none

/-- Coda allophone of `j`: `(V)j([consonant_no_w#]) → \1i̯\2`. -/
def jCodaM (l : Buf) : Option (Nat × Buf) :=
  match l with
  | a :: 'j' :: c :: _ =>
    if a ∈ vowel ∧ (c ∈ consonant_no_w ∨ c = '#') then some (2, [a, 'i', breve, c]) else none
  | _ => none

/-- Word-initial `j` before a consonant: `#j(consonant_no_w) → #i̯\1`. -/
def jInitM (l : Buf) : Option (Nat × Buf) :=
  match l with
  | '#' :: 'j' :: c :: _ =>
    if c ∈ consonant_no_w then some (2, ['#', 'i', breve, c]) else none
  | _ => none

/-- Membership test of the negated class `[^#aɛɪuɔɐoʊei]`. -/
def notHashVowel (c : Char) : Bool := decide (c ≠ '#' ∧ c ∉ vowel)

/-- Membership test of `[ʲː]`. -/
def starPL (c : Char) : Bool := decide (c = 'ʲ' ∨ c = 'ː')

/-- Greedy `[ʲː]*` run at the head of a suffix. -/
def star1 (l : Buf) : Buf := l.takeWhile starPL

/-- Helper for stress step (1) with the optional class character absent:
matches `([ʲː]*)([ˈˌ])` at the head, replacing by `\2\1`. -/
def stress1NoOpt (l : Buf) : Option (Nat × Buf) :=
  match l.drop (star1 l).length with
  | s :: _ => if s ∈ stressChars then some ((star1 l).length, s :: star1 l) else none
  | [] => none

/-- Stress step (1): `([^#V]?[ʲː]*)([ˈˌ]) → \2\1`, the optional class
character greedily taken first. -/
def stress1M (l : Buf) : Option (Nat × Buf) :=
  match l with
  | c :: rest =>
    if notHashVowel c then
      match rest.drop (star1 rest).length with
      | s :: _ =>
        if s ∈ stressChars then some ((star1 rest).length + 1, s :: c :: star1 rest)
        else stress1NoOpt (c :: rest)
      | [] => stress1NoOpt (c :: rest)
    else stress1NoOpt l
  | [] => none

/-- Stress step (2): `([^#V]͡)([ˈˌ]) → \2\1`. -/
def stress2M (l : Buf) : Option (Nat × Buf) :=
  match l with
  | c :: t :: s :: _ =>
    if notHashVowel c ∧ t = tie ∧ s ∈ stressChars then some (2, [s, c, tie]) else none
  | _ => none

/-- Replacement function `onset_replacement` of the source: decide where
the stress mark goes around a two-consonant cluster using
`perm_syl_onset`. -/
def onset_replacement (a : Char) (aj : Buf) (b : Char) (bj : Buf) (st c : Char) : Buf :=
  if [a, b, c] ∈ perm_syl_onset then st :: a :: (aj ++ b :: (bj ++ [c]))
  else if [b, c] ∈ perm_syl_onset ∨ c = 'j' then a :: (aj ++ st :: b :: (bj ++ [c]))
  else a :: (aj ++ b :: (bj ++ [st, c]))

/-- Stress step (3), after the second cluster consonant has been read. -/
def onsetAfterB (a : Char) (aj : Buf) (b : Char) (bj : Buf) (rest3 : Buf) :
    Option (Nat × Buf) :=
  match rest3 with
  | st :: c :: _ =>
    if st ∈ stressChars ∧ c ∈ consonant then
      some (aj.length + bj.length + 3, onset_replacement a aj b bj st c)
    else none
  | _ => none

/-- Stress step (3), after the leading dot character has been read. -/
def onsetAfterA (a : Char) (aj : Buf) (rest1 : Buf) : Option (Nat × Buf) :=
  match rest1 with
  | b :: rest2 =>
    if b ∈ consonant then
      onsetAfterB a aj b (optChar ['ʲ'] rest2).1 (optChar ['ʲ'] rest2).2
    else none
  | [] => none

/-- Stress step (3): `(.)(ʲ?)(C)(ʲ?)([ˈˌ])(C)` replaced through
`onset_replacement` (both `ʲ?` groups are forced: `ʲ` is neither a
consonant nor a stress mark, so Python's backtracking can only succeed
with the greedy choice). -/
def onsetM (l : Buf) : Option (Nat × Buf) :=
  match l with
  | a :: rest0 =>
    if a ≠ '\n' then
      onsetAfterA a (optChar ['ʲ'] rest0).1 (optChar ['ʲ'] rest0).2
    else none
  | [] => none

/-- Stress step (4a): `([^#V]͡)([ˈˌ])(.ʲ?j) → \2\1\3`. -/
def stress4aM (l : Buf) : Option (Nat × Buf) :=
  match l with
  | c :: t :: s :: d :: rest =>
    if notHashVowel c ∧ t = tie ∧ s ∈ stressChars ∧ d ≠ '\n' then
      match rest with
      | 'ʲ' :: 'j' :: _ => some (5, [s, c, tie, d, 'ʲ', 'j'])
      | 'j' :: _ => some (4, [s, c, tie, d, 'j'])
      | _ => none
    else none
  | _ => none

/-- Stress step (4b): `([^#V]͡)([ˈˌ])(.ʲ?) → \1\3\2`. -/
def stress4bM (l : Buf) : Option (Nat × Buf) :=
  match l with
  | c :: t :: s :: d :: rest =>
    if notHashVowel c ∧ t = tie ∧ s ∈ stressChars ∧ d ≠ '\n' then
      match rest with
      | 'ʲ' :: _ => some (4, [c, tie, d, 'ʲ', s])
      | _ => some (3, [c, tie, d, s])
    else none
  | _ => none

/-- Index and value of the last stress mark of a buffer. -/
def lastStressIdx : Buf → Option (Nat × Char)
  | [] => none
  | c :: rest =>
    match lastStressIdx rest with
    | some (i, s) => some (i + 1, s)
    | none => if c ∈ stressChars then some (0, c) else none

/-- Greedy `[^#V]+` run of stress step (5). -/
def run5 (rest : Buf) : Buf := rest.takeWhile notHashVowel

/-- Stress step (5): `#([^#V]+)([ˈˌ]) → #\2\1`; the greedy group makes the
stress of the pattern the last stress mark inside the word-initial
non-vowel run. -/
def stress5M (l : Buf) : Option (Nat × Buf) :=
  match l with
  | '#' :: rest =>
    match lastStressIdx (run5 rest) with
    | some (k, s) => if 1 ≤ k then some (k + 1, '#' :: s :: (run5 rest).take k) else none
    | none => none
  | _ => none

/-- Stress step (6): `#([ui]̯)([ˈˌ]) → #\2\1`. -/
def stress6M (l : Buf) : Option (Nat × Buf) :=
  match l with
  | '#' :: v :: b :: s :: _ =>
    if (v = 'u' ∨ v = 'i') ∧ b = breve ∧ s ∈ stressChars then
      some (3, ['#', s, v, breve])
    else none
  | _ => none

/-- Mark cleanup `ʲ?ːʲ → ʲː`. -/
def palLenM (l : Buf) : Option (Nat × Buf) :=
  match l with
  | 'ʲ' :: 'ː' :: 'ʲ' :: _ => some (2, ['ʲ', 'ː'])
  | 'ː' :: 'ʲ' :: _ => some (1, ['ʲ', 'ː'])
  | _ => none

/-- Dark `l`: `l([^ʲ]) → ɫ\1`. -/
def darkLM (l : Buf) : Option (Nat × Buf) :=
  match l with
  | 'l' :: d :: _ => if d ≠ 'ʲ' then some (1, ['ɫ', d]) else none
  | _ => none

/-! ## Rule tables (transcribed from the source, in insertion order) -/

/-- Literal entries of `orthographic_replacements` before the gemination
rules. -/
def orthLits1 : List (Buf × Buf) :=
  [("нтськ".data, "ньськ".data), ("стськ".data, "ськ".data), ("нтст".data, "нст".data),
   ("стч".data, "шч".data), ("стд".data, "зд".data), ("стс".data, "сː".data),
   ("#зш".data, "#шː".data), ("зш".data, "жш".data), ("#зч".data, "#шч".data),
   ("зч".data, "жч".data)]

/-- Literal entries of `orthographic_replacements` after the gemination
rules. -/
def orthLits2 : List (Buf × Buf) :=
  [("дждж".data, "джː".data), ("дздз".data, "дзː".data)]

/-- Python source: `phonetic_chars_map`, three-character sequences. -/
def charMap1 : List (Buf × Buf) :=
  [("дзь".data, "d͡zʲ".data), ("тьс".data, "t͡sʲː".data)]

/-- Python source: `phonetic_chars_map`, two-character sequences. -/
def charMap2 : List (Buf × Buf) :=
  [("дж".data, "d͡ʒ".data), ("дз".data, "d͡z".data), ("дс".data, "d͡zs".data),
   ("дш".data, "d͡ʒʃ".data), ("дч".data, "d͡ʒt͡ʃ".data), ("дц".data, "d͡zt͡s".data),
   ("тс".data, "t͡s".data), ("тш".data, "t͡ʃʃ".data), ("тч".data, "t͡ʃː".data),
   ("тц".data, "t͡sː".data)]

/-- Python source: `phonetic_chars_map`, single characters (the apostrophe
entry is the typographic `’`, U+2019; the two stress diacritics map to the
IPA stress marks). -/
def charMap3 : List (Buf × Buf) :=
  [("а".data, "a".data), ("б".data, "b".data), ("в".data, "ʋ".data), ("г".data, "ɦ".data),
   ("ґ".data, "ɡ".data), ("д".data, "d".data), ("е".data, "ɛ".data), ("є".data, "jɛ".data),
   ("ж".data, "ʒ".data), ("з".data, "z".data), ("и".data, "ɪ".data), ("і".data, "i".data),
   ("ї".data, "ji".data), ("й".data, "j".data), ("к".data, "k".data), ("л".data, "l".data),
   ("м".data, "m".data), ("н".data, "n".data), ("о".data, "ɔ".data), ("п".data, "p".data),
   ("р".data, "r".data), ("с".data, "s".data), ("т".data, "t".data), ("у".data, "u".data),
   ("ф".data, "f".data), ("х".data, "x".data), ("ц".data, "t͡s".data), ("ч".data, "t͡ʃ".data),
   ("ш".data, "ʃ".data), ("щ".data, "ʃt͡ʃ".data), ("ь".data, "ʲ".data), ("ю".data, "ju".data),
   ("я".data, "ja".data), ("’".data, "j".data), ([ACUTE], "ˈ".data), ([GRAVE], "ˌ".data)]

/-- Hushing-before-hissing literal rules of lines 304–307. -/
def hushLits : List (Buf × Buf) :=
  [("ʒt͡sʲ".data, "zʲt͡sʲ".data), ("t͡ʃt͡sʲ".data, "t͡sʲː".data),
   ("ʃt͡sʲ".data, "sʲt͡sʲ".data), ("ʃsʲ".data, "sʲː".data)]

/-- Hissing-before-hushing literal rules of lines 313–318. -/
def hissLits : List (Buf × Buf) :=
  [("zʒ".data, "ʒː".data), ("sʃ".data, "ʃː".data), ("zt͡ʃ".data, "ʒt͡ʃ".data),
   ("zd͡ʒ".data, "ʒd͡ʒ".data), ("t͡ʒ".data, "d͡ʒ".data), ("t͡z".data, "d͡z".data)]

/-! ## The pipeline -/

/-- Stages up to and including `orthographic_replacements`, on the
`#`-wrapped token. -/
def stagesA (tok : Buf) : Buf :=
  let p := '#' :: (tok ++ ['#'])
  let p := tablePass orthLits1 p
  let p := rewrite gemBM p
  let p := rewrite (doubleAfterRunM 'ж') p
  let p := rewrite (doubleAfterRunM 'з') p
  let p := rewrite gemJKM p
  tablePass orthLits2 p

/-- Stages from the grapheme→phone map up to the `ɛ` reduction (lines
251–332 of the source), after the apostrophe remap. -/
def stagesB (ca : Bool) (p0 : Buf) : Buf :=
  let p := tablePass charMap1 p0
  let p := tablePass charMap2 p
  let p := tablePass charMap3 p
  let p := rewrite stressSwapM p
  let p := if (p.filter (fun c => decide (c ∈ vowel6))).length = 1 ∧ ca then
    rewrite monoM p else p
  let p := rewrite palatIM p
  let p := rewrite palatJM p
  let p := litPass "ʲːj".data "ʲː".data p
  let p := rewrite stsjM p
  let p := voicingFold voicing p
  let p := rewrite softDotM p
  let p := rewrite (softAffLitM "t͡sʲ".data) p
  let p := rewrite (softAffLitM "d͡zʲ".data) p
  let p := rewrite (affDotM "t͡s".data) p
  let p := rewrite (affDotM "d͡z".data) p
  let p := litPass "d͡zt͡sʲ".data "d͡zʲt͡sʲ".data p
  let p := litPass "t͡sd͡zʲ".data "t͡sʲd͡zʲ".data p
  let p := tablePass hushLits p
  let p := tablePass hissLits p
  let p := rewrite exPalM p
  let p := rewrite (redM 'a' 'ɐ') p
  let p := rewrite (redM 'u' 'ʊ') p
  let p := rewrite oM p
  rewrite (redM 'ɛ' 'e') p

/-- Stages between the `⁀` removal and the `%` removal (the `ʋ` and `j`
allophone rules, lines 341–359). -/
def stagesMid (p0 : Buf) : Buf :=
  let p := rewrite vCodaM p0
  let p := rewrite vwM p
  let p := rewrite vhM p
  let p := rewrite jCodaM p
  rewrite jInitM p

/-- Stages after the `%` removal: stress repositioning, mark cleanup and
dark `l` (lines 363–394). -/
def stagesLate (p0 : Buf) : Buf :=
  let p := rewrite stress1M p0
  let p := rewrite stress2M p
  let p := rewrite onsetM p
  let p := rewrite stress4aM p
  let p := rewrite stress4bM p
  let p := rewrite stress5M p
  let p := rewrite stress6M p
  let p := rewrite palLenM p
  rewrite darkLM p

/-- The whole per-token pipeline of the `for` body, in source order:
orthographic simplification, apostrophe remap, grapheme mapping and
assimilation, `⁀` removal, glide allophones, `%` removal, stress
repositioning. -/
def processToken (ca : Bool) (tok : Buf) : Buf :=
  stagesLate
    ((stagesMid
        ((stagesB ca (rewrite aposM (stagesA tok))).filter (fun c => c ≠ '⁀'))).filter
      (fun c => c ≠ '%'))

/-- Error class of the source (`class AccentIsMissing(ValueError)`). -/
inductive AccentIsMissing
  | mk
  deriving DecidableEq

def pyLower (l : Buf) : Buf := l.map lowerChar

/-- The per-token loop, join and final `#` removal. -/
def ipaBody (t : Buf) (ca : Bool) : Buf :=
  (joinSpace ((splitTokens (collapseSpaces t)).map (processToken ca))).filter
    (fun c => c ≠ '#')

/-- Python source: `ipa(text, check_accent)`.  Raising is modelled with
`Except`: the `AccentIsMissing` branch mirrors the nested `if`s of lines
135–141, evaluated on `decompose_grave(text).lower()`. -/
def ipa (text : Buf) (check_accent : Bool) : Except AccentIsMissing Buf :=
  let t := pyLower (decompose_grave text)
  if check_accent = true ∧ ACUTE ∉ t ∧ GRAVE ∉ t ∧
      1 < (t.filter (fun c => decide (c ∈ cyrVowels))).length then
    Except.error AccentIsMissing.mk
  else
    Except.ok (ipaBody t check_accent)

/-! ## Claims -/

set_option maxRecDepth 8000

/-- C1: `ipa text check_accent` raises `AccentIsMissing` if and only if
`check_accent` is true, the normalised text (graves decomposed,
lowercased) contains neither the combining acute nor the combining grave,
and that text has more than one vowel letter from `аеєиіїоуюя`; in every
other case a string is returned (the pipeline after the check is a total
function). -/
theorem c1_accent_error_iff (text : Buf) (ca : Bool) :
    (ipa text ca = Except.error AccentIsMissing.mk ↔
      (ca = true ∧ ACUTE ∉ pyLower (decompose_grave text) ∧
        GRAVE ∉ pyLower (decompose_grave text) ∧
        1 < ((pyLower (decompose_grave text)).filter
          (fun c => decide (c ∈ cyrVowels))).length)) ∧
    ((∃ out, ipa text ca = Except.ok out) ↔
      ¬ (ca = true ∧ ACUTE ∉ pyLower (decompose_grave text) ∧
        GRAVE ∉ pyLower (decompose_grave text) ∧
        1 < ((pyLower (decompose_grave text)).filter
          (fun c => decide (c ∈ cyrVowels))).length)) := by
  by_cases h : (ca = true ∧ ACUTE ∉ pyLower (decompose_grave text) ∧
      GRAVE ∉ pyLower (decompose_grave text) ∧
      1 < ((pyLower (decompose_grave text)).filter
        (fun c => decide (c ∈ cyrVowels))).length)
  · simp [ipa, h]
  · simp [ipa, h]

/-- C4 counterexample: on `сме́рть` (combining acute after `е`) with
`check_accent = true` the code returns `ˈsmɛrtʲ`, not the `smɛrtʲ` the
claim states: the explicitly supplied accent of a monosyllabic word is
kept as `ˈ` (only the internal `⁀` marker is removed, by design, cf. the
source comment about `нема́ за́ що`). -/
theorem c4_counterexample :
    ipa "сме́рть".data true = Except.ok "ˈsmɛrtʲ".data ∧
      "ˈsmɛrtʲ".data ≠ "smɛrtʲ".data :=
  ⟨rfl, by decide⟩

/-- C4 amended: `ipa` on `сме́рть` (combining acute after `е`) with
`check_accent = true` returns exactly `ˈsmɛrtʲ` (the user-supplied stress
mark on the monosyllable is preserved in the output). -/
theorem c4_smert_eval :
    ipa "сме́рть".data true = Except.ok "ˈsmɛrtʲ".data := rfl

/-- C5 counterexample: on `Сла́ва` (combining acute after the first `а`)
with `check_accent = true` the code returns `ˈsɫaʋɐ`, not the claimed
`ˈsɫɐʋɐ`: the stressed `a` is excluded from the `a → ɐ` reduction (the
rule's pattern `([^ˈˌ⁀])a` skips a vowel right after a stress mark). -/
theorem c5_counterexample :
    ipa "Сла́ва".data true = Except.ok "ˈsɫaʋɐ".data ∧
      "ˈsɫaʋɐ".data ≠ "ˈsɫɐʋɐ".data :=
  ⟨rfl, by decide⟩

/-- C5 amended: `ipa` on `Сла́ва` (combining acute after the first `а`)
with `check_accent = true` returns exactly `ˈsɫaʋɐ` (stressed `a` stays
`a`; only the final unstressed `a` reduces to `ɐ`). -/
theorem c5_slava_eval :
    ipa "Сла́ва".data true = Except.ok "ˈsɫaʋɐ".data := rfl

/-- Permutation of the `voicing` table with the `t͡s` entry applied before
the `s` entry (positions 5 and 10 swapped). -/
def voicingAlt : List (Buf × Buf) :=
  [("p".data, "b".data), ("f".data, "v".data), ("t".data, "d".data),
   ("tʲ".data, "dʲ".data), ("t͡s".data, "d͡z".data), ("sʲ".data, "zʲ".data),
   ("ʃ".data, "ʒ".data), ("k".data, "ɡ".data), ("x".data, "ɦ".data),
   ("s".data, "z".data), ("t͡sʲ".data, "d͡zʲ".data),
   ("t͡ʃ".data, "d͡ʒ".data), ("ʃt͡ʃ".data, "ʒd͡ʒ".data)]

/-- C8 counterexample: the voicing pass is not order-independent.
`voicingAlt` permutes the 13-entry table (the `t͡s` and `s` entries are
swapped), yet on the buffer `t͡sb` the code's order yields `t͡zb` (the
`s` entry fires inside the affricate first) while the permuted order
yields `d͡zb`: the patterns `s` and `t͡s` are not disjoint. -/
theorem c8_counterexample :
    voicingAlt.Perm voicing ∧
      voicingFold voicingAlt "t͡sb".data ≠ voicingFold voicing "t͡sb".data := by
  constructor
  · decide
  · decide

/-- C8 amended: the voicing pass applies the 13 substitutions in the fixed
table (dictionary) order; this order matters because some patterns overlap
(`s` with `t͡s`, `ʃ` with `ʃt͡ʃ`): in the code's order the buffer `t͡sb`
becomes `t͡zb` (the later `t͡ʒ`/`t͡z` cleanup rules of lines 317–318 exist
to repair exactly such outcomes), whereas applying the `t͡s` entry first
would give `d͡zb`. -/
theorem c8_voicing_order :
    voicingFold voicing "t͡sb".data = "t͡zb".data ∧
      voicingFold voicingAlt "t͡sb".data = "d͡zb".data :=
  ⟨rfl, rfl⟩

/-! ## C9: idempotence of normalisation -/

/-- The four precomposed grave-accented Cyrillic letters. -/
def graveSet : Buf := ['ѐ', 'Ѐ', 'ѝ', 'Ѝ']

/-- Normalisation as performed by the source: decomposition of the
precomposed grave-accented letters and lowercasing (line 133), then
whitespace collapsing (line 147). -/
def normalizeText (l : Buf) : Buf :=
  collapseSpaces (pyLower (decompose_grave l))

theorem lookup_mem {l : List (Char × Char)} {k v : Char}
    (h : l.lookup k = some v) : (k, v) ∈ l := by
  induction l with
  | nil => simp [List.lookup] at h
  | cons p ps ih =>
    obtain ⟨a, b⟩ := p
    rw [List.lookup] at h
    cases hk : k == a with
    | true =>
      rw [hk] at h
      simp only [] at h
      cases h
      have : k = a := by simpa using hk
      subst this
      exact List.mem_cons_self _ _
    | false =>
      rw [hk] at h
      simp only [] at h
      exact List.mem_cons_of_mem _ (ih h)

theorem lowerPairs_values_fixed :
    ∀ p ∈ lowerPairs, lowerPairs.lookup p.2 = none := by decide

theorem lowerChar_idem (c : Char) : lowerChar (lowerChar c) = lowerChar c := by
  unfold lowerChar
  cases h : List.lookup c lowerPairs with
  | none => simp [h]
  | some v =>
    have hv : List.lookup v lowerPairs = none :=
      lowerPairs_values_fixed (c, v) (lookup_mem h)
    simp [h, hv]

theorem lowerChar_grave {c : Char} (h : lowerChar c ∈ graveSet) : c ∈ graveSet := by
  unfold lowerChar at h
  cases hl : lowerPairs.lookup c with
  | none => simpa [hl] using h
  | some v =>
    rw [hl] at h
    simp at h
    have hmem := lookup_mem hl
    have hkey : ∀ p ∈ lowerPairs, p.2 ∈ graveSet → p.1 ∈ graveSet := by decide
    exact hkey (c, v) hmem h

theorem grave_decomposer_no_graves (c : Char) :
    ∀ d ∈ grave_decomposer c, d ∉ graveSet := by
  intro d hd
  unfold grave_decomposer at hd
  split_ifs at hd with h1 h2 h3 h4
  · simp at hd; rcases hd with hd | hd <;> (subst hd; decide)
  · simp at hd; rcases hd with hd | hd <;> (subst hd; decide)
  · simp at hd; rcases hd with hd | hd <;> (subst hd; decide)
  · simp at hd; rcases hd with hd | hd <;> (subst hd; decide)
  · simp at hd
    subst hd
    intro hmem
    simp [graveSet] at hmem
    rcases hmem with h | h | h | h <;> simp_all

theorem decompose_no_graves (l : Buf) :
    ∀ d ∈ decompose_grave l, d ∉ graveSet := by
  intro d hd
  unfold decompose_grave at hd
  rw [List.mem_flatMap] at hd
  obtain ⟨x, _, hdx⟩ := hd
  exact grave_decomposer_no_graves x d hdx

theorem grave_decomposer_fixed {c : Char} (h : c ∉ graveSet) :
    grave_decomposer c = [c] := by
  unfold grave_decomposer
  simp [graveSet] at h
  obtain ⟨h1, h2, h3, h4⟩ := h
  simp [h1, h2, h3, h4]

theorem decompose_fixed {l : Buf} (h : ∀ c ∈ l, c ∉ graveSet) :
    decompose_grave l = l := by
  induction l with
  | nil => rfl
  | cons c rest ih =>
    unfold decompose_grave
    rw [List.flatMap_cons]
    rw [grave_decomposer_fixed (h c (List.mem_cons_self _ _))]
    have : decompose_grave rest = rest := ih (fun d hd => h d (List.mem_cons_of_mem _ hd))
    unfold decompose_grave at this
    rw [this]
    rfl

theorem map_fixed {f : Char → Char} {l : Buf} (h : ∀ c ∈ l, f c = c) :
    l.map f = l := by
  induction l with
  | nil => rfl
  | cons c rest ih =>
    rw [List.map_cons, h c (List.mem_cons_self _ _), ih (fun d hd => h d (List.mem_cons_of_mem _ hd))]

theorem mem_collapseAux {b : Bool} {l : Buf} {c : Char}
    (h : c ∈ collapseAux b l) : c = ' ' ∨ c ∈ l := by
  induction l generalizing b with
  | nil => simp [collapseAux] at h
  | cons d rest ih =>
    unfold collapseAux at h
    by_cases hd : isPySpace d = true
    · rw [if_pos hd] at h
      cases b with
      | true =>
        simp at h
        rcases ih h with h | h
        · exact Or.inl h
        · exact Or.inr (List.mem_cons_of_mem _ h)
      | false =>
        simp at h
        rcases h with h | h
        · exact Or.inl h
        · rcases ih h with h | h
          · exact Or.inl h
          · exact Or.inr (List.mem_cons_of_mem _ h)
    · rw [if_neg hd] at h
      rcases List.mem_cons.mp h with h | h
      · exact Or.inr (h ▸ List.mem_cons_self _ _)
      · rcases ih h with h | h
        · exact Or.inl h
        · exact Or.inr (List.mem_cons_of_mem _ h)

theorem collapseAux_cons (b : Bool) (c : Char) (rest : Buf) :
    collapseAux b (c :: rest) =
      if isPySpace c then
        (if b then collapseAux true rest else ' ' :: collapseAux true rest)
      else c :: collapseAux false rest := rfl

theorem collapseAux_idem : ∀ (l : Buf) (b : Bool),
    collapseAux b (collapseAux b l) = collapseAux b l := by
  intro l
  induction l with
  | nil => intro b; rfl
  | cons c rest ih =>
    intro b
    have hsp : isPySpace ' ' = true := by decide
    by_cases hc : isPySpace c = true <;>
      cases b <;>
        simp [collapseAux_cons, hc, hsp, ih]

/-- C9: normalisation (grave decomposition, lowercasing, whitespace
collapsing) is idempotent: applying it twice equals applying it once. -/
theorem c9_normalize_idem (l : Buf) :
    normalizeText (normalizeText l) = normalizeText l := by
  have hng : ∀ c ∈ normalizeText l, c ∉ graveSet := by
    intro c hc
    rcases mem_collapseAux hc with h | h
    · subst h; decide
    · simp only [pyLower, List.mem_map] at h
      obtain ⟨c', hc', rfl⟩ := h
      intro hg
      exact decompose_no_graves _ c' hc' (lowerChar_grave hg)
  have hlf : ∀ c ∈ normalizeText l, lowerChar c = c := by
    intro c hc
    rcases mem_collapseAux hc with h | h
    · subst h; decide
    · simp only [pyLower, List.mem_map] at h
      obtain ⟨c', _, rfl⟩ := h
      exact lowerChar_idem c'
  have h1 : decompose_grave (normalizeText l) = normalizeText l := decompose_fixed hng
  have h2 : pyLower (normalizeText l) = normalizeText l := map_fixed hlf
  have h3 : collapseSpaces (normalizeText l) = normalizeText l := by
    unfold normalizeText collapseSpaces
    exact collapseAux_idem _ false
  calc normalizeText (normalizeText l)
      = collapseSpaces (pyLower (decompose_grave (normalizeText l))) := rfl
    _ = collapseSpaces (normalizeText l) := by rw [h1, h2]
    _ = normalizeText l := h3

/-! ## C7: the `ɔ` assimilation stage -/

/-- Does the suffix after an `ɔ` qualify for the assimilation, per the
code's class `[bdzʒɡɦmnlrpftskxʲʃ͡]`: a non-empty run over `oCls`, then a
stress mark, then `u`, `i` or `ʊ`. -/
def oQualified (rest : Buf) : Bool :=
  decide (1 ≤ (oRun rest).length) &&
    (match rest.drop (oRun rest).length with
     | st :: v :: _ => decide (st ∈ stress3) && decide (v ∈ oTargets)
     | _ => false)

/-- Spec-side formulation of the stage (the claim's wording modulo the
character class): every occurrence of `ɔ` whose right context qualifies is
replaced by `o`, each occurrence judged independently. -/
def oAllophoneSpec : Buf → Buf
  | [] => []
  | c :: rest => (if c = 'ɔ' ∧ oQualified rest = true then 'o' else c) :: oAllophoneSpec rest

/-- Character class the claim asserts for the intervening run: the code's
class together with the length mark `ː`. -/
def oClsClaim : Buf := oCls ++ ['ː']

/-- Qualification per the claim's class (with `ː`). -/
def oQualifiedClaim (rest : Buf) : Bool :=
  let run := rest.takeWhile (fun c => decide (c ∈ oClsClaim))
  decide (1 ≤ run.length) &&
    (match rest.drop run.length with
     | st :: v :: _ => decide (st ∈ stress3) && decide (v ∈ oTargets)
     | _ => false)

theorem drop_append_self (A B : Buf) : (A ++ B).drop A.length = B :=
  List.drop_left A B

theorem drop_append_two (A : Buf) (x y : Char) (B : Buf) :
    (A ++ x :: y :: B).drop (A.length + 2) = B := by
  rw [List.drop_append_eq_append_drop, List.drop_eq_nil_of_le (by omega), List.nil_append,
    Nat.add_sub_cancel_left]
  rfl

theorem oAllophoneSpec_cons (c : Char) (rest : Buf) :
    oAllophoneSpec (c :: rest) =
      (if c = 'ɔ' ∧ oQualified rest = true then 'o' else c) :: oAllophoneSpec rest := rfl

theorem oAllophoneSpec_append {xs : Buf} (h : ∀ x ∈ xs, x ≠ 'ɔ') (ys : Buf) :
    oAllophoneSpec (xs ++ ys) = xs ++ oAllophoneSpec ys := by
  induction xs with
  | nil => rfl
  | cons x rest ih =>
    rw [List.cons_append, oAllophoneSpec_cons,
      if_neg (by simp [h x (List.mem_cons_self _ _)]),
      ih (fun y hy => h y (List.mem_cons_of_mem _ hy)), List.cons_append]

theorem oM_none_not_qualified {c : Char} {rest : Buf}
    (hm : oM (c :: rest) = none) : ¬(c = 'ɔ' ∧ oQualified rest = true) := by
  rintro ⟨rfl, hq⟩
  simp only [oM, if_true] at hm
  unfold oQualified at hq
  split at hm
  · rename_i st v tail heq
    rw [heq] at hq
    simp only [Bool.and_eq_true, decide_eq_true_eq] at hq
    obtain ⟨h1, h2, h3⟩ := hq
    rw [if_pos ⟨h1, h2, h3⟩] at hm
    exact Option.some_ne_none _ hm
  · rename_i hne
    rw [show rest.drop (oRun rest).length =
        rest.drop (oRun rest).length from rfl] at hq
    cases hd : rest.drop (oRun rest).length with
    | nil => rw [hd] at hq; simp at hq
    | cons st t2 =>
      cases t2 with
      | nil => rw [hd] at hq; simp at hq
      | cons v tail => exact hne st v tail hd

theorem rewriteAux_oM_spec :
    ∀ (fuel : Nat) (l : Buf), l.length ≤ fuel →
      rewriteAux oM l fuel = oAllophoneSpec l := by
  intro fuel
  induction fuel with
  | zero =>
    intro l h
    have hl : l = [] := by cases l <;> simp_all
    subst hl
    rfl
  | succ n ih =>
    intro l hlen
    cases l with
    | nil => rw [rewriteAux_nil]; rfl
    | cons c rest =>
      rw [rewriteAux_cons]
      cases hm : oM (c :: rest) with
      | none =>
        simp only []
        rw [ih rest (by simp at hlen; omega), oAllophoneSpec_cons,
          if_neg (oM_none_not_qualified hm)]
      | some p =>
        obtain ⟨k, r⟩ := p
        simp only []
        have hc : c = 'ɔ' := by
          by_contra hne
          simp only [oM] at hm
          rw [if_neg hne] at hm
          exact Option.noConfusion hm
        subst hc
        simp only [oM, if_true] at hm
        split at hm
        case h_2 => exact absurd hm (by simp)
        rename_i st v tail heq
        by_cases hcond : 1 ≤ (oRun rest).length ∧ st ∈ stress3 ∧ v ∈ oTargets
        case neg => rw [if_neg hcond] at hm; exact absurd hm (by simp)
        rw [if_pos hcond] at hm
        obtain ⟨hrun, hst, hv⟩ := hcond
        obtain ⟨hk, hr⟩ : k = (oRun rest).length + 2 ∧
            r = 'o' :: (oRun rest ++ [st, v]) := by
          cases hm; exact ⟨rfl, rfl⟩
        subst hk
        subst hr
        obtain ⟨t, ht⟩ := List.takeWhile_prefix (l := rest) (fun c => decide (c ∈ oCls))
        have ht' : oRun rest ++ t = rest := ht
        have hdrop : rest.drop (oRun rest).length = t := by
          have h2 := congrArg (List.drop (oRun rest).length) ht'
          rw [drop_append_self] at h2
          exact h2.symm
        have ht2 : t = st :: v :: tail := hdrop ▸ heq
        subst ht2
        have hq : oQualified rest = true := by
          unfold oQualified
          rw [heq]
          simp [hrun, hst, hv]
        have hdroplen : rest.drop ((oRun rest).length + 2) = tail := by
          have h2 := congrArg (List.drop ((oRun rest).length + 2)) ht'
          rw [drop_append_two] at h2
          exact h2.symm
        rw [hdroplen]
        have hlen' : tail.length ≤ n := by
          have hres := congrArg List.length ht'
          simp at hres
          simp at hlen
          omega
        rw [ih tail hlen']
        rw [oAllophoneSpec_cons, if_pos ⟨rfl, hq⟩]
        conv_rhs => rw [← ht']
        rw [oAllophoneSpec_append
          (fun x hx => by
            have hpx := List.mem_takeWhile_imp hx
            simp only [decide_eq_true_eq] at hpx
            intro hxo
            subst hxo
            exact absurd hpx (by decide))]
        have hst' : st ≠ 'ɔ' := by
          intro h
          subst h
          exact absurd hst (by decide)
        have hv' : v ≠ 'ɔ' := by
          intro h
          subst h
          exact absurd hv (by decide)
        rw [show st :: v :: tail = [st, v] ++ tail from rfl,
          oAllophoneSpec_append (by
            intro x hx
            simp at hx
            rcases hx with rfl | rfl
            · exact hst'
            · exact hv')]
        simp

/-- C7 amended: the `ɔ` assimilation pass equals the per-occurrence
specification: every `ɔ` followed (across a non-empty run over the code's
class `[bdzʒɡɦmnlrpftskxʲʃ͡]` — consonants, `ʲ` and the tie bar, but not
the length mark `ː`) by a stress mark (`ˈ`, `ˌ` or `⁀`) immediately
followed by `u`, `i` or `ʊ` is replaced by `o`, and nothing else
changes. -/
theorem c7_o_assimilation (l : Buf) : rewrite oM l = oAllophoneSpec l :=
  rewriteAux_oM_spec l.length l le_rfl

/-- C7 counterexample: in the buffer `ɔsːˈu` the `ɔ` is followed by the
non-empty run `sː` (a consonant and the length mark) and then `ˈu`, so the
claim's rule (whose class includes `ː`) requires `o`; the code's class
lacks `ː`, and the pass leaves the buffer unchanged. -/
theorem c7_counterexample :
    oQualifiedClaim "sːˈu".data = true ∧
      rewrite oM "ɔsːˈu".data = "ɔsːˈu".data := by
  constructor
  · decide
  · rfl

/-! ## C6: the unstressed `a`/`u` reduction stage -/

/-- Stress predecessors at the option level (`none` marks the buffer
start). -/
def stressO : List (Option Char) := [some 'ˈ', some 'ˌ', some '⁀']

/-- Does the buffer avoid two adjacent occurrences of `t`? -/
def noDouble (t : Char) : Buf → Bool
  | c :: d :: rest => !(decide (c = t) && decide (d = t)) && noDouble t (d :: rest)
  | _ => true

/-- Every occurrence of `t` in the buffer is immediately preceded by `ˈ`,
`ˌ` or `⁀`; `p` is the character before the buffer (`none` at the
start). -/
def stressedOnly (t : Char) : Option Char → Buf → Bool
  | _, [] => true
  | p, c :: rest =>
    (if c = t then decide (p ∈ stressO) else true) && stressedOnly t (some c) rest

theorem noDouble_cons2 (t c d : Char) (rest : Buf) :
    noDouble t (c :: d :: rest) =
      (!(decide (c = t) && decide (d = t)) && noDouble t (d :: rest)) := rfl

theorem stressedOnly_cons (t : Char) (p : Option Char) (c : Char) (rest : Buf) :
    stressedOnly t p (c :: rest) =
      ((if c = t then decide (p ∈ stressO) else true) && stressedOnly t (some c) rest) := rfl

theorem some_mem_stressO {c : Char} (h : c ∈ stress3) : some c ∈ stressO := by
  simp [stress3] at h
  rcases h with rfl | rfl | rfl <;> simp [stressO]

theorem redM_some {t t' c : Char} {rest : Buf} {k : Nat} {r : Buf}
    (h : redM t t' (c :: rest) = some (k, r)) :
    c ∉ stress3 ∧ k = 1 ∧ r = [c, t'] ∧ ∃ rest2, rest = t :: rest2 := by
  cases rest with
  | nil => simp [redM] at h
  | cons d rest2 =>
    simp only [redM] at h
    split at h
    · rename_i hcond
      cases h
      exact ⟨hcond.1, rfl, rfl, rest2, by rw [hcond.2]⟩
    · exact absurd h (by simp)

theorem redM_none_head {t t' c d : Char} {rest : Buf}
    (h : redM t t' (c :: d :: rest) = none) (hd : d = t) : c ∈ stress3 := by
  simp only [redM] at h
  split at h
  · exact absurd h (by simp)
  · rename_i hcond
    by_contra hcs
    exact hcond ⟨hcs, hd⟩

theorem redM_stressedOnly {t t' : Char} (ht : t' ≠ t) :
    ∀ (fuel : Nat) (l : Buf) (p : Option Char), l.length ≤ fuel →
      noDouble t l = true → (l.head? = some t → p ∈ stressO) →
      stressedOnly t p (rewriteAux (redM t t') l fuel) = true := by
  intro fuel
  induction fuel with
  | zero =>
    intro l p hlen _ _
    have hl : l = [] := by cases l <;> simp_all
    subst hl
    rfl
  | succ n ih =>
    intro l p hlen hnd hhead
    cases l with
    | nil => rw [rewriteAux_nil]; rfl
    | cons c rest =>
      rw [rewriteAux_cons]
      cases hm : redM t t' (c :: rest) with
      | none =>
        simp only []
        rw [stressedOnly_cons, Bool.and_eq_true]
        constructor
        · split
          · rename_i hct
            exact decide_eq_true (hhead (by simp [hct]))
          · rfl
        · refine ih rest (some c) (by simp at hlen; omega) ?_ ?_
          · cases rest with
            | nil => rfl
            | cons d rest2 =>
              rw [noDouble_cons2, Bool.and_eq_true] at hnd
              exact hnd.2
          · intro hr
            cases rest with
            | nil => simp at hr
            | cons d rest2 =>
              simp at hr
              exact some_mem_stressO (redM_none_head hm hr)
      | some q =>
        obtain ⟨k, r⟩ := q
        simp only []
        obtain ⟨hcs, hk, hr, rest2, hrest⟩ := redM_some hm
        subst hk
        subst hr
        subst hrest
        rw [List.drop_one, List.tail_cons]
        rw [show ([c, t'] : Buf) ++ rewriteAux (redM t t') rest2 n =
          c :: t' :: rewriteAux (redM t t') rest2 n from rfl]
        rw [stressedOnly_cons, Bool.and_eq_true]
        constructor
        · split
          · rename_i hct
            exact decide_eq_true (hhead (by simp [hct]))
          · rfl
        · rw [stressedOnly_cons, Bool.and_eq_true]
          constructor
          · rw [if_neg ht]
          · refine ih rest2 (some t') (by simp at hlen; omega) ?_ ?_
            · rw [noDouble_cons2, Bool.and_eq_true] at hnd
              cases rest2 with
              | nil => rfl
              | cons e rest3 =>
                rw [noDouble_cons2, Bool.and_eq_true] at hnd
                exact hnd.2.2
            · intro hr
              exfalso
              rw [noDouble_cons2, Bool.and_eq_true] at hnd
              cases rest2 with
              | nil => simp at hr
              | cons e rest3 =>
                simp at hr
                subst hr
                have := hnd.2
                rw [noDouble_cons2, Bool.and_eq_true] at this
                simp at this

/-- Pointwise relation between a buffer and its reduced image. -/
def redRel (t t' : Char) (x y : Char) : Prop :=
  y = x ∨ (x = t ∧ y = t')

theorem redM_forall2 (t t' : Char) :
    ∀ (fuel : Nat) (l : Buf),
      List.Forall₂ (redRel t t') l (rewriteAux (redM t t') l fuel) := by
  intro fuel
  induction fuel with
  | zero =>
    intro l
    rw [rewriteAux_zero]
    rw [List.forall₂_same]
    intro x _
    exact Or.inl rfl
  | succ n ih =>
    intro l
    cases l with
    | nil => rw [rewriteAux_nil]; exact List.Forall₂.nil
    | cons c rest =>
      rw [rewriteAux_cons]
      cases hm : redM t t' (c :: rest) with
      | none => exact List.Forall₂.cons (Or.inl rfl) (ih rest)
      | some q =>
        obtain ⟨k, r⟩ := q
        simp only []
        obtain ⟨_, hk, hr, rest2, hrest⟩ := redM_some hm
        subst hk
        subst hr
        subst hrest
        rw [List.drop_one, List.tail_cons]
        exact List.Forall₂.cons (Or.inl rfl)
          (List.Forall₂.cons (Or.inr ⟨rfl, rfl⟩) (ih rest2))

theorem noDouble_of_forall2 {t : Char} {R : Char → Char → Prop}
    (hR : ∀ x y, R x y → (y = t ↔ x = t)) :
    ∀ {l l' : Buf}, List.Forall₂ R l l' → noDouble t l = true → noDouble t l' = true := by
  intro l l' h
  induction h with
  | nil => intro; rfl
  | cons hxy htail ih =>
    rename_i x y xs ys
    intro hnd
    cases htail with
    | nil => rfl
    | cons hxy2 htail2 =>
      rename_i x2 y2 xs2 ys2
      rw [noDouble_cons2, Bool.and_eq_true] at hnd ⊢
      constructor
      · have h1 := hR x y hxy
        have h2 := hR x2 y2 hxy2
        simp only [Bool.not_eq_true', Bool.and_eq_false_iff] at hnd ⊢
        rcases hnd.1 with h | h
        · left
          simp only [decide_eq_false_iff_not] at h ⊢
          exact fun hy => h (h1.mp hy)
        · right
          simp only [decide_eq_false_iff_not] at h ⊢
          exact fun hy => h (h2.mp hy)
      · exact ih hnd.2

theorem head_of_forall2 {R : Char → Char → Prop} {l l' : Buf} {y : Char}
    (h : List.Forall₂ R l l') (hy : l'.head? = some y) :
    ∃ x, l.head? = some x ∧ R x y := by
  cases h with
  | nil => simp at hy
  | cons hxy htail =>
    simp at hy
    subst hy
    exact ⟨_, rfl, hxy⟩

theorem stressedOnly_of_forall2 {t : Char} {R : Char → Char → Prop}
    (hmem : ∀ x y, R x y → y = t → x = t)
    (hstr : ∀ x y, R x y → x ∈ stress3 → y ∈ stress3) :
    ∀ {l l' : Buf}, List.Forall₂ R l l' →
      ∀ {p p' : Option Char},
        (p = none ∧ p' = none ∨ ∃ a b, p = some a ∧ p' = some b ∧ R a b) →
        stressedOnly t p l = true → stressedOnly t p' l' = true := by
  intro l l' h
  induction h with
  | nil => intro p p' _ _; rfl
  | cons hxy htail ih =>
    rename_i x y xs ys
    intro p p' hpp hs
    rw [stressedOnly_cons, Bool.and_eq_true] at hs ⊢
    constructor
    · split
      · rename_i hyt
        have hxt : x = t := hmem x y hxy hyt
        rw [if_pos hxt] at hs
        have hp : p ∈ stressO := by simpa using hs.1
        rcases hpp with ⟨rfl, rfl⟩ | ⟨a, b, rfl, rfl, hab⟩
        · exact absurd hp (by decide)
        · have ha : a ∈ stress3 := by
            simp [stressO] at hp
            rcases hp with rfl | rfl | rfl <;> decide
          exact decide_eq_true (some_mem_stressO (hstr a b hab ha))
      · rfl
    · exact ih (Or.inr ⟨x, y, rfl, rfl, hxy⟩) hs.2

/-- C6 amended: the reduction stage is a pair of left-to-right
non-overlapping `re.sub` passes, so an `a`/`u` whose predecessor was
consumed as the target of the previous overlapping match survives; but for
every buffer that does not begin with `a` or `u` and has no `aa` or `uu`
substring, after the stage (the `a → ɐ` pass followed by the `u → ʊ` pass)
every remaining `a` or `u` is immediately preceded by `ˈ`, `ˌ` or `⁀`. -/
theorem c6_vowel_reduction (l : Buf)
    (ha2 : noDouble 'a' l = true) (hu2 : noDouble 'u' l = true)
    (hha : l.head? ≠ some 'a') (hhu : l.head? ≠ some 'u') :
    stressedOnly 'a' none (rewrite (redM 'u' 'ʊ') (rewrite (redM 'a' 'ɐ') l)) = true ∧
      stressedOnly 'u' none (rewrite (redM 'u' 'ʊ') (rewrite (redM 'a' 'ɐ') l)) = true := by
  have hfa : List.Forall₂ (redRel 'a' 'ɐ') l (rewrite (redM 'a' 'ɐ') l) :=
    redM_forall2 'a' 'ɐ' l.length l
  have hfu : List.Forall₂ (redRel 'u' 'ʊ') (rewrite (redM 'a' 'ɐ') l)
      (rewrite (redM 'u' 'ʊ') (rewrite (redM 'a' 'ɐ') l)) :=
    redM_forall2 'u' 'ʊ' (rewrite (redM 'a' 'ɐ') l).length _
  have hA : stressedOnly 'a' none (rewrite (redM 'a' 'ɐ') l) = true :=
    redM_stressedOnly (by decide) l.length l none le_rfl ha2 (fun h => absurd h hha)
  constructor
  · refine stressedOnly_of_forall2 ?_ ?_ hfu (Or.inl ⟨rfl, rfl⟩) hA
    · intro x y hxy hyt
      rcases hxy with rfl | ⟨rfl, rfl⟩
      · exact hyt
      · exact absurd hyt (by decide)
    · intro x y hxy hx
      rcases hxy with rfl | ⟨rfl, rfl⟩
      · exact hx
      · exact absurd hx (by decide)
  · have hndu : noDouble 'u' (rewrite (redM 'a' 'ɐ') l) = true := by
      refine noDouble_of_forall2 ?_ hfa hu2
      intro x y hxy
      rcases hxy with rfl | ⟨rfl, rfl⟩
      · exact Iff.rfl
      · constructor
        · intro h; exact absurd h (by decide)
        · intro h; exact absurd h (by decide)
    have hheadu : (rewrite (redM 'a' 'ɐ') l).head? = some 'u' →
        (none : Option Char) ∈ stressO := by
      intro h
      exfalso
      obtain ⟨x, hx, hrel⟩ := head_of_forall2 hfa h
      rcases hrel with rfl | ⟨rfl, h2⟩
      · exact hhu hx
      · exact absurd h2 (by decide)
    exact redM_stressedOnly (by decide) _ _ none le_rfl hndu hheadu

/-- C6 counterexample: on the buffer `#aa#` the stage (lines 326–328)
yields `#ɐa#`: the second `a` survives although its predecessor `ɐ` is
not a stress mark, because the first match consumed it; the claim's
postcondition fails. -/
theorem c6_counterexample :
    rewrite (redM 'u' 'ʊ') (rewrite (redM 'a' 'ɐ') "#aa#".data) = "#ɐa#".data ∧
      stressedOnly 'a' none "#ɐa#".data = false := by
  constructor
  · rfl
  · rfl

/-- C6 witness: the amended statement applied to the pipeline buffer
`#slˈaʋa#` of the word `сла́ва`. -/
theorem c6_witness :
    stressedOnly 'a' none
        (rewrite (redM 'u' 'ʊ') (rewrite (redM 'a' 'ɐ') "#slˈaʋa#".data)) = true ∧
      stressedOnly 'u' none
        (rewrite (redM 'u' 'ʊ') (rewrite (redM 'a' 'ɐ') "#slˈaʋa#".data)) = true :=
  c6_vowel_reduction "#slˈaʋa#".data (by decide) (by decide) (by decide) (by decide)

/-! ## C2: the onset-aware stress repositioning step -/

theorem optChar_not_mem {cs : Buf} {c : Char} {rest : Buf} (h : c ∉ cs) :
    optChar cs (c :: rest) = ([], c :: rest) := by
  simp [optChar, h]

theorem optChar_mem {cs : Buf} {c : Char} {rest : Buf} (h : c ∈ cs) :
    optChar cs (c :: rest) = ([c], rest) := by
  simp [optChar, h]

theorem onsetM_window (a b c st : Char) (aj bj rest : Buf)
    (ha : a ≠ '\n') (hb : b ∈ consonant) (hc : c ∈ consonant)
    (haj : aj = [] ∨ aj = ['ʲ']) (hbj : bj = [] ∨ bj = ['ʲ'])
    (hst : st ∈ stressChars) :
    onsetM (a :: (aj ++ b :: (bj ++ st :: c :: rest))) =
      some (aj.length + bj.length + 3, onset_replacement a aj b bj st c) := by
  have hbne : b ∉ (['ʲ'] : Buf) := by
    simp only [List.mem_singleton]
    intro h
    subst h
    exact absurd hb (by decide)
  have hstne : st ∉ (['ʲ'] : Buf) := by
    simp only [List.mem_singleton]
    intro h
    subst h
    exact absurd hst (by decide)
  rcases haj with rfl | rfl <;> rcases hbj with rfl | rfl <;>
    simp [onsetM, onsetAfterA, onsetAfterB, ha, hb, hc, hst,
      optChar_not_mem hbne, optChar_not_mem hstne,
      optChar_mem (show 'ʲ' ∈ (['ʲ'] : Buf) from List.mem_singleton_self _)]

/-- C2: on a buffer consisting of the matched window — any character `a`
(not a newline), an optional `ʲ`, a consonant `b`, an optional `ʲ`, a
stress mark, a consonant `c` — followed by any remainder, the stress
repositioning step (3) moves the stress before all of `a`, `b`, `c` when
the three-character key `abc` is in the Permissible Onset Set; otherwise
just before the cluster `bc` when the two-character key `bc` is in the set
or `c` is `j`; otherwise it leaves the stress between the two cluster
consonants. -/
theorem c2_onset_stress (a b c st : Char) (aj bj rest : Buf)
    (ha : a ≠ '\n') (hb : b ∈ consonant) (hc : c ∈ consonant)
    (haj : aj = [] ∨ aj = ['ʲ']) (hbj : bj = [] ∨ bj = ['ʲ'])
    (hst : st ∈ stressChars) :
    rewrite onsetM (a :: (aj ++ b :: (bj ++ st :: c :: rest))) =
      (if [a, b, c] ∈ perm_syl_onset then st :: a :: (aj ++ b :: (bj ++ [c]))
       else if [b, c] ∈ perm_syl_onset ∨ c = 'j' then a :: (aj ++ st :: b :: (bj ++ [c]))
       else a :: (aj ++ b :: (bj ++ [st, c]))) ++ rewrite onsetM rest := by
  have hwin := onsetM_window a b c st aj bj rest ha hb hc haj hbj hst
  rcases haj with rfl | rfl <;> rcases hbj with rfl | rfl <;>
  · simp only [List.nil_append, List.cons_append] at hwin ⊢
    unfold rewrite
    simp only [List.length_cons]
    rw [rewriteAux_cons, hwin]
    simp only [List.length_nil, List.length_cons, List.drop_succ_cons, List.drop_zero]
    rw [rewriteAux_fuel_eq onsetM _ rest.length rest (by omega) le_rfl]
    simp [onset_replacement]

/-- C2 witness: the window `s t ˈ r`: the three-character key `str` is a
permissible onset, so the stress moves before all three consonants. -/
theorem c2_witness :
    rewrite onsetM ['s', 't', 'ˈ', 'r'] = ['ˈ', 's', 't', 'r'] := by
  have h := c2_onset_stress 's' 't' 'r' 'ˈ' [] [] [] (by decide) (by decide)
    (by decide) (Or.inl rfl) (Or.inl rfl) (by decide)
  simp only [List.nil_append] at h
  rw [show (['s', 't', 'ˈ', 'r'] : Buf) = 's' :: 't' :: 'ˈ' :: 'r' :: [] from rfl, h]
  rw [if_pos (by decide)]
  rfl

/-! ## Replacement-alphabet lemmas

For every matcher, the characters of the replacement come from the matched
input or from the pass's fixed replacement alphabet; with
`not_mem_rewrite` this yields that the internal markers, once removed,
never reappear. -/

theorem optChar_fst_subset (cs l : Buf) : (optChar cs l).1 ⊆ cs := by
  match l with
  | [] => intro x hx; simp [optChar] at hx
  | c :: rest =>
    by_cases h : c ∈ cs
    · rw [optChar_mem h]
      intro x hx
      simp at hx
      subst hx
      exact h
    · rw [optChar_not_mem h]
      intro x hx
      simp at hx

theorem optChar_snd_subset (cs l : Buf) : (optChar cs l).2 ⊆ l := by
  match l with
  | [] => intro x hx; simp [optChar] at hx
  | c :: rest =>
    by_cases h : c ∈ cs
    · rw [optChar_mem h]
      exact fun x hx => List.mem_cons_of_mem _ hx
    · rw [optChar_not_mem h]
      exact fun x hx => hx

theorem hf_vCodaM : ∀ l n r, vCodaM l = some (n, r) →
    ∀ c ∈ r, c ∈ l ∨ c ∈ (['u', breve] : Buf) := by
  intro l n r h c hc
  unfold vCodaM at h
  split at h
  · split at h
    · cases h
      simp only [List.mem_cons, List.not_mem_nil, or_false] at hc
      rcases hc with rfl | rfl | rfl | rfl
      · exact Or.inl (by simp)
      · exact Or.inr (by simp)
      · exact Or.inr (by simp)
      · exact Or.inl (by simp)
    · exact absurd h (by simp)
  · exact absurd h (by simp)

theorem hf_vwM : ∀ l n r, vwM l = some (n, r) →
    ∀ c ∈ r, c ∈ l ∨ c ∈ (['w', 'ˈ', 'ˌ'] : Buf) := by
  intro l n r h x hx
  unfold vwM at h
  split at h
  case h_2 => exact absurd h (by simp)
  rename_i rest
  split at h
  case h_2 => exact absurd h (by simp)
  rename_i d tail heq
  split at h
  case isFalse => exact absurd h (by simp)
  cases h
  simp only [List.mem_cons] at hx
  rcases hx with rfl | hx
  · exact Or.inr (by simp)
  · rw [List.mem_append] at hx
    rcases hx with hx | hx
    · have h1 := optChar_fst_subset stressChars rest hx
      simp [stressChars] at h1
      rcases h1 with rfl | rfl
      · exact Or.inr (by simp)
      · exact Or.inr (by simp)
    · simp only [List.mem_singleton] at hx
      subst hx
      have h1 : x ∈ (optChar stressChars rest).2 := by rw [heq]; simp
      exact Or.inl (List.mem_cons_of_mem _ (optChar_snd_subset _ _ h1))

theorem hf_vhM : ∀ l n r, vhM l = some (n, r) →
    ∀ c ∈ r, c ∈ l ∨ c ∈ (['ʍ'] : Buf) := by
  intro l n r h c hc
  unfold vhM at h
  split at h
  · split at h
    · cases h
      simp only [List.mem_cons, List.not_mem_nil, or_false] at hc
      rcases hc with rfl | rfl
      · exact Or.inr (by simp)
      · exact Or.inl (by simp)
    · exact absurd h (by simp)
  · exact absurd h (by simp)

theorem hf_jCodaM : ∀ l n r, jCodaM l = some (n, r) →
    ∀ c ∈ r, c ∈ l ∨ c ∈ (['i', breve] : Buf) := by
  intro l n r h c hc
  unfold jCodaM at h
  split at h
  · split at h
    · cases h
      simp only [List.mem_cons, List.not_mem_nil, or_false] at hc
      rcases hc with rfl | rfl | rfl | rfl
      · exact Or.inl (by simp)
      · exact Or.inr (by simp)
      · exact Or.inr (by simp)
      · exact Or.inl (by simp)
    · exact absurd h (by simp)
  · exact absurd h (by simp)

theorem hf_jInitM : ∀ l n r, jInitM l = some (n, r) →
    ∀ c ∈ r, c ∈ l ∨ c ∈ (['i', breve] : Buf) := by
  intro l n r h c hc
  unfold jInitM at h
  split at h
  · split at h
    · cases h
      simp only [List.mem_cons, List.not_mem_nil, or_false] at hc
      rcases hc with rfl | rfl | rfl | rfl
      · exact Or.inl (by simp)
      · exact Or.inr (by simp)
      · exact Or.inr (by simp)
      · exact Or.inl (by simp)
    · exact absurd h (by simp)
  · exact absurd h (by simp)

theorem star1_subset (l : Buf) : star1 l ⊆ l :=
  List.takeWhile_subset _

theorem hf_stress1NoOpt : ∀ l n r, stress1NoOpt l = some (n, r) →
    ∀ c ∈ r, c ∈ l := by
  intro l n r h c hc
  unfold stress1NoOpt at h
  split at h
  case h_2 => exact absurd h (by simp)
  rename_i s tail heq
  split at h
  case isFalse => exact absurd h (by simp)
  cases h
  simp only [List.mem_cons] at hc
  rcases hc with rfl | hc
  · have : c ∈ l.drop (star1 l).length := by rw [heq]; simp
    exact List.drop_subset _ _ this
  · exact star1_subset _ hc

theorem hf_stress1M : ∀ l n r, stress1M l = some (n, r) →
    ∀ c ∈ r, c ∈ l := by
  intro l n r h c hc
  unfold stress1M at h
  split at h
  case h_2 => exact absurd h (by simp)
  rename_i d rest
  split at h
  case isFalse => exact hf_stress1NoOpt _ _ _ h c hc
  split at h
  case h_2 => exact hf_stress1NoOpt _ _ _ h c hc
  rename_i s tail heq
  split at h
  case isFalse => exact hf_stress1NoOpt _ _ _ h c hc
  cases h
  simp only [List.mem_cons] at hc
  rcases hc with rfl | rfl | hc
  · have : c ∈ rest.drop (star1 rest).length := by rw [heq]; simp
    exact List.mem_cons_of_mem _ (List.drop_subset _ _ this)
  · simp
  · exact List.mem_cons_of_mem _ (star1_subset _ hc)

theorem hf_stress2M : ∀ l n r, stress2M l = some (n, r) →
    ∀ c ∈ r, c ∈ l := by
  intro l n r h c hc
  unfold stress2M at h
  split at h
  · split at h
    · cases h
      simp only [List.mem_cons, List.not_mem_nil, or_false] at hc
      rename_i hcond
      rcases hc with rfl | rfl | rfl
      · exact (by simp)
      · exact (by simp)
      · rw [hcond.2.1]; simp
    · exact absurd h (by simp)
  · exact absurd h (by simp)

theorem mem_onset_replacement {a : Char} {aj : Buf} {b : Char} {bj : Buf} {st c x : Char}
    (h : x ∈ onset_replacement a aj b bj st c) :
    x = a ∨ x ∈ aj ∨ x = b ∨ x ∈ bj ∨ x = st ∨ x = c := by
  unfold onset_replacement at h
  split_ifs at h <;> simp at h <;> tauto

theorem hf_onsetM : ∀ l n r, onsetM l = some (n, r) →
    ∀ c ∈ r, c ∈ l ∨ c ∈ (['ʲ'] : Buf) := by
  intro l n r h x hx
  unfold onsetM at h
  split at h
  · rename_i a rest0
    split at h
    · unfold onsetAfterA at h
      split at h
      · rename_i b rest2 heq1
        split at h
        · unfold onsetAfterB at h
          split at h
          · rename_i st c tail heq2
            split at h
            · cases h
              have hb : b ∈ rest0 := by
                have : b ∈ (optChar ['ʲ'] rest0).2 := by rw [heq1]; simp
                exact optChar_snd_subset _ _ this
              have hst : st ∈ rest0 := by
                have h1 : st ∈ (optChar ['ʲ'] rest2).2 := by rw [heq2]; simp
                have h2 : st ∈ rest2 := optChar_snd_subset _ _ h1
                have h3 : st ∈ (optChar ['ʲ'] rest0).2 := by
                  rw [heq1]; exact List.mem_cons_of_mem _ h2
                exact optChar_snd_subset _ _ h3
              have hcc : c ∈ rest0 := by
                have h1 : c ∈ (optChar ['ʲ'] rest2).2 := by rw [heq2]; simp
                have h2 : c ∈ rest2 := optChar_snd_subset _ _ h1
                have h3 : c ∈ (optChar ['ʲ'] rest0).2 := by
                  rw [heq1]; exact List.mem_cons_of_mem _ h2
                exact optChar_snd_subset _ _ h3
              rcases mem_onset_replacement hx with rfl | hx | rfl | hx | rfl | rfl
              · exact Or.inl (by simp)
              · exact Or.inr (optChar_fst_subset _ _ hx)
              · exact Or.inl (List.mem_cons_of_mem _ hb)
              · exact Or.inr (optChar_fst_subset _ _
                  (by
                    have := hx
                    exact this))
              · exact Or.inl (List.mem_cons_of_mem _ hst)
              · exact Or.inl (List.mem_cons_of_mem _ hcc)
            · exact absurd h (by simp)
          · exact absurd h (by simp)
        · exact absurd h (by simp)
      · exact absurd h (by simp)
    · exact absurd h (by simp)
  · exact absurd h (by simp)

theorem hf_stress4aM : ∀ l n r, stress4aM l = some (n, r) →
    ∀ c ∈ r, c ∈ l ∨ c ∈ (['ʲ', 'j'] : Buf) := by
  intro l n r h x hx
  unfold stress4aM at h
  split at h
  case h_2 => exact absurd h (by simp)
  rename_i c t s d rest
  split at h
  case isFalse => exact absurd h (by simp)
  rename_i hcond
  split at h
  case h_3 => exact absurd h (by simp)
  all_goals (
    cases h
    simp only [List.mem_cons, List.not_mem_nil, or_false] at hx
    rw [hcond.2.1])
  · rcases hx with rfl | rfl | rfl | rfl | rfl | rfl
    · exact Or.inl (by simp)
    · exact Or.inl (by simp)
    · exact Or.inl (by simp)
    · exact Or.inl (by simp)
    · exact Or.inr (by simp)
    · exact Or.inr (by simp)
  · rcases hx with rfl | rfl | rfl | rfl | rfl
    · exact Or.inl (by simp)
    · exact Or.inl (by simp)
    · exact Or.inl (by simp)
    · exact Or.inl (by simp)
    · exact Or.inr (by simp)

theorem hf_stress4bM : ∀ l n r, stress4bM l = some (n, r) →
    ∀ c ∈ r, c ∈ l ∨ c ∈ (['ʲ'] : Buf) := by
  intro l n r h x hx
  unfold stress4bM at h
  split at h
  case h_2 => exact absurd h (by simp)
  rename_i c t s d rest
  split at h
  case isFalse => exact absurd h (by simp)
  rename_i hcond
  split at h
  all_goals (
    cases h
    simp only [List.mem_cons, List.not_mem_nil, or_false] at hx
    rw [hcond.2.1])
  · rcases hx with rfl | rfl | rfl | rfl | rfl
    · exact Or.inl (by simp)
    · exact Or.inl (by simp)
    · exact Or.inl (by simp)
    · exact Or.inr (by simp)
    · exact Or.inl (by simp)
  · rcases hx with rfl | rfl | rfl | rfl
    · exact Or.inl (by simp)
    · exact Or.inl (by simp)
    · exact Or.inl (by simp)
    · exact Or.inl (by simp)

theorem lastStressIdx_mem {l : Buf} {k : Nat} {s : Char}
    (h : lastStressIdx l = some (k, s)) : s ∈ l := by
  induction l generalizing k with
  | nil => simp [lastStressIdx] at h
  | cons c rest ih =>
    unfold lastStressIdx at h
    split at h
    · rename_i q heq
      obtain ⟨i, s'⟩ := q
      cases h
      exact List.mem_cons_of_mem _ (ih heq)
    · split at h
      · cases h
        simp
      · exact absurd h (by simp)

theorem run5_subset (l : Buf) : run5 l ⊆ l :=
  List.takeWhile_subset _

theorem hf_stress5M : ∀ l n r, stress5M l = some (n, r) →
    ∀ c ∈ r, c ∈ l := by
  intro l n r h c hc
  unfold stress5M at h
  split at h
  case h_2 => exact absurd h (by simp)
  rename_i rest
  split at h
  case h_2 => exact absurd h (by simp)
  rename_i k s heq
  split at h
  case isFalse => exact absurd h (by simp)
  cases h
  simp only [List.mem_cons] at hc
  rcases hc with rfl | rfl | hc
  · simp
  · exact List.mem_cons_of_mem _ (run5_subset _ (lastStressIdx_mem heq))
  · exact List.mem_cons_of_mem _ (run5_subset _ (List.take_subset _ _ hc))

theorem hf_stress6M : ∀ l n r, stress6M l = some (n, r) →
    ∀ c ∈ r, c ∈ l := by
  intro l n r h c hc
  unfold stress6M at h
  split at h
  · split at h
    · cases h
      simp only [List.mem_cons, List.not_mem_nil, or_false] at hc
      rcases hc with rfl | rfl | rfl | rfl
      · simp
      · simp
      · simp
      · rename_i hcond
        rw [hcond.2.1]; simp
    · exact absurd h (by simp)
  · exact absurd h (by simp)

theorem hf_palLenM : ∀ l n r, palLenM l = some (n, r) →
    ∀ c ∈ r, c ∈ l ∨ c ∈ (['ʲ', 'ː'] : Buf) := by
  intro l n r h c hc
  unfold palLenM at h
  split at h <;> first
    | (cases h
       simp only [List.mem_cons, List.not_mem_nil, or_false] at hc
       rcases hc with rfl | rfl
       · exact Or.inr (by simp)
       · exact Or.inr (by simp))
    | exact absurd h (by simp)

theorem hf_darkLM : ∀ l n r, darkLM l = some (n, r) →
    ∀ c ∈ r, c ∈ l ∨ c ∈ (['ɫ'] : Buf) := by
  intro l n r h c hc
  unfold darkLM at h
  split at h
  · split at h
    · cases h
      simp only [List.mem_cons, List.not_mem_nil, or_false] at hc
      rcases hc with rfl | rfl
      · exact Or.inr (by simp)
      · exact Or.inl (by simp)
    · exact absurd h (by simp)
  · exact absurd h (by simp)

theorem hf_gemBM : ∀ l n r, gemBM l = some (n, r) →
    ∀ c ∈ r, c ∈ l ∨ c ∈ (['ː'] : Buf) := by
  intro l n r h c hc
  unfold gemBM at h
  split at h
  · split at h
    · cases h
      simp only [List.mem_cons, List.not_mem_nil, or_false] at hc
      rcases hc with rfl | rfl
      · exact Or.inl (by simp)
      · exact Or.inr (by simp)
    · exact absurd h (by simp)
  · exact absurd h (by simp)

theorem hf_gemJKM : ∀ l n r, gemJKM l = some (n, r) →
    ∀ c ∈ r, c ∈ l ∨ c ∈ (['ː'] : Buf) := by
  intro l n r h c hc
  unfold gemJKM at h
  split at h
  · split at h
    · cases h
      simp only [List.mem_cons, List.not_mem_nil, or_false] at hc
      rcases hc with rfl | rfl
      · exact Or.inl (by simp)
      · exact Or.inr (by simp)
    · exact absurd h (by simp)
  · exact absurd h (by simp)

theorem hf_doubleAfterRunM (ch : Char) : ∀ l n r, doubleAfterRunM ch l = some (n, r) →
    ∀ c ∈ r, c ∈ l ∨ c ∈ ([ch, 'ː'] : Buf) := by
  intro l n r h c hc
  unfold doubleAfterRunM at h
  split at h
  · cases h
    rw [List.mem_append] at hc
    rcases hc with hc | hc
    · exact Or.inl (List.take_subset _ _ hc)
    · simp only [List.mem_cons, List.not_mem_nil, or_false] at hc
      rcases hc with rfl | rfl
      · exact Or.inr (by simp)
      · exact Or.inr (by simp)
  · exact absurd h (by simp)

theorem hf_aposM : ∀ l n r, aposM l = some (n, r) →
    ∀ c ∈ r, c ∈ l ∨ c ∈ (['%'] : Buf) := by
  intro l n r h c hc
  unfold aposM at h
  split at h
  · split at h
    · cases h
      simp only [List.mem_singleton] at hc
      subst hc
      exact Or.inr (by simp)
    · exact absurd h (by simp)
  · exact absurd h (by simp)

theorem aposM_fires : ∀ rest, aposM (apos :: rest) ≠ none := by
  intro rest
  simp [aposM]

theorem hf_stressSwapM : ∀ l n r, stressSwapM l = some (n, r) →
    ∀ c ∈ r, c ∈ l := by
  intro l n r h c hc
  unfold stressSwapM at h
  split at h
  · split at h
    · cases h
      simp only [List.mem_cons, List.not_mem_nil, or_false] at hc
      rcases hc with rfl | rfl
      · simp
      · simp
    · exact absurd h (by simp)
  · exact absurd h (by simp)

theorem hf_monoM : ∀ l n r, monoM l = some (n, r) →
    ∀ c ∈ r, c ∈ l ∨ c ∈ (['⁀'] : Buf) := by
  intro l n r h c hc
  unfold monoM at h
  split at h
  · split at h
    · cases h
      simp only [List.mem_cons, List.not_mem_nil, or_false] at hc
      rcases hc with rfl | rfl
      · exact Or.inr (by simp)
      · exact Or.inl (by simp)
    · exact absurd h (by simp)
  · exact absurd h (by simp)

theorem hf_palatIM : ∀ l n r, palatIM l = some (n, r) →
    ∀ c ∈ r, c ∈ l ∨ c ∈ (['ʲ', 'i', 'ː', 'ˈ', 'ˌ', '⁀'] : Buf) := by
  intro l n r h x hx
  unfold palatIM at h
  split at h
  case h_2 => exact absurd h (by simp)
  rename_i p rest
  split at h
  case isFalse => exact absurd h (by simp)
  split at h
  case h_2 => exact absurd h (by simp)
  cases h
  simp only [List.mem_cons] at hx
  rcases hx with rfl | rfl | hx
  · exact Or.inl (by simp)
  · exact Or.inr (by simp)
  · rw [List.mem_append, List.mem_append] at hx
    rcases hx with (hx | hx) | hx
    · have := optChar_fst_subset ['ː'] rest hx
      simp at this
      subst this
      exact Or.inr (by simp)
    · have := optChar_fst_subset stress3 _ hx
      simp [stress3] at this
      rcases this with rfl | rfl | rfl
      · exact Or.inr (by simp)
      · exact Or.inr (by simp)
      · exact Or.inr (by simp)
    · simp only [List.mem_singleton] at hx
      subst hx
      exact Or.inr (by simp)

theorem hf_palatJM : ∀ l n r, palatJM l = some (n, r) →
    ∀ c ∈ r, c ∈ l ∨ c ∈ (['ʲ', 'ː'] : Buf) := by
  intro l n r h x hx
  unfold palatJM at h
  split at h
  case h_2 => exact absurd h (by simp)
  rename_i p rest
  split at h
  case isFalse => exact absurd h (by simp)
  split at h
  case h_2 => exact absurd h (by simp)
  cases h
  simp only [List.mem_cons] at hx
  rcases hx with rfl | rfl | hx
  · exact Or.inl (by simp)
  · exact Or.inr (by simp)
  · have := optChar_fst_subset ['ː'] rest hx
    simp at this
    subst this
    exact Or.inr (by simp)

theorem hf_stsjM : ∀ l n r, stsjM l = some (n, r) →
    ∀ c ∈ r, c ∈ l ∨ c ∈ (['s', 'ʲ', 't', tie] : Buf) := by
  intro l n r h c hc
  unfold stsjM at h
  split at h
  · cases h
    simp only [List.mem_cons, List.not_mem_nil, or_false] at hc
    rcases hc with rfl | rfl | rfl | rfl | rfl | rfl <;> exact Or.inr (by simp)
  · exact absurd h (by simp)

theorem hf_voicingM (key val : Buf) : ∀ l n r, voicingM key val l = some (n, r) →
    ∀ c ∈ r, c ∈ l ∨ c ∈ val := by
  intro l n r h c hc
  unfold voicingM at h
  split at h
  · split at h
    · cases h
      rw [List.mem_append] at hc
      rcases hc with hc | hc
      · exact Or.inr hc
      · have h1 : c ∈ l.drop key.length := List.takeWhile_subset _ hc
        exact Or.inl (List.drop_subset _ _ h1)
    · exact absurd h (by simp)
  · exact absurd h (by simp)

theorem not_mem_voicingFold {x : Char} {rules : List (Buf × Buf)}
    (hr : ∀ p ∈ rules, x ∉ p.2) :
    ∀ {l : Buf}, x ∉ l → x ∉ voicingFold rules l := by
  induction rules with
  | nil => intro l hl; exact hl
  | cons p ps ih =>
    intro l hl
    have h1 : x ∉ rewrite (voicingM p.1 p.2) l :=
      not_mem_rewrite (hf_voicingM p.1 p.2) hl (hr p (List.mem_cons_self _ _))
    exact ih (fun q hq => hr q (List.mem_cons_of_mem _ hq)) h1

theorem hf_softDotM : ∀ l n r, softDotM l = some (n, r) →
    ∀ c ∈ r, c ∈ l ∨ c ∈ (['ʲ'] : Buf) := by
  intro l n r h c hc
  unfold softDotM at h
  split at h
  · split at h
    · cases h
      simp only [List.mem_cons, List.not_mem_nil, or_false] at hc
      rcases hc with rfl | rfl | rfl | rfl
      · exact Or.inl (by simp)
      · exact Or.inr (by simp)
      · exact Or.inl (by simp)
      · exact Or.inr (by simp)
    · exact absurd h (by simp)
  · exact absurd h (by simp)

theorem hf_softAffLitM (key : Buf) : ∀ l n r, softAffLitM key l = some (n, r) →
    ∀ c ∈ r, c ∈ l ∨ c ∈ ('ʲ' :: key : Buf) := by
  intro l n r h c hc
  unfold softAffLitM at h
  split at h
  · split at h
    · cases h
      simp only [List.mem_cons] at hc
      rcases hc with rfl | rfl | hc
      · exact Or.inl (by simp)
      · exact Or.inr (by simp)
      · exact Or.inr (List.mem_cons_of_mem _ hc)
    · exact absurd h (by simp)
  · exact absurd h (by simp)

theorem hf_affDotM (pre : Buf) : ∀ l n r, affDotM pre l = some (n, r) →
    ∀ c ∈ r, c ∈ l ∨ c ∈ ('ʲ' :: pre : Buf) := by
  intro l n r h c hc
  unfold affDotM at h
  split at h
  · split at h
    case h_2 => exact absurd h (by simp)
    rename_i d tail heq
    split at h
    case isFalse => exact absurd h (by simp)
    cases h
    rw [List.mem_append] at hc
    rcases hc with hc | hc
    · exact Or.inr (List.mem_cons_of_mem _ hc)
    · simp only [List.mem_cons, List.not_mem_nil, or_false] at hc
      rcases hc with rfl | rfl | rfl
      · exact Or.inr (by simp)
      · have h1 : c ∈ l.drop pre.length := by rw [heq]; simp
        exact Or.inl (List.drop_subset _ _ h1)
      · exact Or.inr (by simp)
  · exact absurd h (by simp)

theorem hf_exPalM : ∀ l n r, exPalM l = some (n, r) →
    ∀ c ∈ r, c ∈ l ∨ c ∈ (['ʲ'] : Buf) := by
  intro l n r h c hc
  unfold exPalM at h
  split at h
  · cases h
    rw [List.mem_append] at hc
    rcases hc with hc | hc
    · rw [List.mem_append] at hc
      rcases hc with hc | hc
      · exact Or.inl (List.take_subset _ _ hc)
      · exact Or.inl (List.drop_subset _ _ (List.take_subset _ _ hc))
    · simp only [List.mem_cons] at hc
      rcases hc with rfl | hc
      · exact Or.inr (by simp)
      · rw [List.mem_append] at hc
        rcases hc with hc | hc
        · exact Or.inl (List.drop_subset _ _
            (List.drop_subset _ _ (List.take_subset _ _ hc)))
        · simp only [List.mem_singleton] at hc
          subst hc
          exact Or.inr (by simp)
  · exact absurd h (by simp)

theorem hf_redM (t t' : Char) : ∀ l n r, redM t t' l = some (n, r) →
    ∀ c ∈ r, c ∈ l ∨ c ∈ ([t'] : Buf) := by
  intro l n r h c hc
  unfold redM at h
  split at h
  · split at h
    · cases h
      simp only [List.mem_cons, List.not_mem_nil, or_false] at hc
      rcases hc with rfl | rfl
      · exact Or.inl (by simp)
      · exact Or.inr (by simp)
    · exact absurd h (by simp)
  · exact absurd h (by simp)

theorem hf_oM : ∀ l n r, oM l = some (n, r) →
    ∀ c ∈ r, c ∈ l ∨ c ∈ (['o'] : Buf) := by
  intro l n r h c hc
  unfold oM at h
  split at h
  case h_2 => exact absurd h (by simp)
  rename_i d rest
  split at h
  case isFalse => exact absurd h (by simp)
  split at h
  case h_2 => exact absurd h (by simp)
  rename_i st v tail heq
  split at h
  case isFalse => exact absurd h (by simp)
  cases h
  simp only [List.mem_cons] at hc
  rcases hc with rfl | hc
  · exact Or.inr (by simp)
  · rw [List.mem_append] at hc
    rcases hc with hc | hc
    · exact Or.inl (List.mem_cons_of_mem _ (List.takeWhile_subset _ hc))
    · simp only [List.mem_cons, List.not_mem_nil, or_false] at hc
      rcases hc with rfl | rfl
      · have h1 : c ∈ rest.drop (oRun rest).length := by rw [heq]; simp
        exact Or.inl (List.mem_cons_of_mem _ (List.drop_subset _ _ h1))
      · have h1 : c ∈ rest.drop (oRun rest).length := by rw [heq]; simp
        exact Or.inl (List.mem_cons_of_mem _ (List.drop_subset _ _ h1))

theorem not_mem_filter_of {x : Char} {l : Buf} {p : Char → Bool}
    (h : x ∉ l) : x ∉ l.filter p :=
  fun hm => h (List.mem_of_mem_filter hm)

theorem not_mem_ite_monoM {x : Char} {l : Buf} (cond : Prop) [Decidable cond]
    (hx : x ∉ (['⁀'] : Buf)) (hl : x ∉ l) :
    x ∉ (if cond then rewrite monoM l else l) := by
  split
  · exact not_mem_rewrite hf_monoM hl hx
  · exact hl

theorem aposM_some : ∀ l n r, aposM l = some (n, r) → r = ['%'] := by
  intro l n r h
  unfold aposM at h
  split at h
  · split at h
    · cases h; rfl
    · exact absurd h (by simp)
  · exact absurd h (by simp)

theorem apos_removed (l : Buf) : apos ∉ rewrite aposM l :=
  not_mem_rewrite_removed
    (fun l' n r h => by rw [aposM_some l' n r h]; decide)
    aposM_fires l

/-- Prefix of `charMap3` before the `’` entry. -/
def charMap3pre : List (Buf × Buf) :=
  [("а".data, "a".data), ("б".data, "b".data), ("в".data, "ʋ".data), ("г".data, "ɦ".data),
   ("ґ".data, "ɡ".data), ("д".data, "d".data), ("е".data, "ɛ".data), ("є".data, "jɛ".data),
   ("ж".data, "ʒ".data), ("з".data, "z".data), ("и".data, "ɪ".data), ("і".data, "i".data),
   ("ї".data, "ji".data), ("й".data, "j".data), ("к".data, "k".data), ("л".data, "l".data),
   ("м".data, "m".data), ("н".data, "n".data), ("о".data, "ɔ".data), ("п".data, "p".data),
   ("р".data, "r".data), ("с".data, "s".data), ("т".data, "t".data), ("у".data, "u".data),
   ("ф".data, "f".data), ("х".data, "x".data), ("ц".data, "t͡s".data), ("ч".data, "t͡ʃ".data),
   ("ш".data, "ʃ".data), ("щ".data, "ʃt͡ʃ".data), ("ь".data, "ʲ".data), ("ю".data, "ju".data),
   ("я".data, "ja".data)]

theorem tablePass_cons (p : Buf × Buf) (t : List (Buf × Buf)) (y : Buf) :
    tablePass (p :: t) y = tablePass t (litPass p.1 p.2 y) := rfl

theorem tablePass_append (t1 t2 : List (Buf × Buf)) (y : Buf) :
    tablePass (t1 ++ t2) y = tablePass t2 (tablePass t1 y) := by
  simp [tablePass, List.foldl_append]

theorem charMap3_eq :
    charMap3 = charMap3pre ++
      (("’".data, "j".data) :: [([ACUTE], "ˈ".data), ([GRAVE], "ˌ".data)]) := by decide

theorem rsq_not_mem_charMap3 (y : Buf) : '’' ∉ tablePass charMap3 y := by
  rw [charMap3_eq, tablePass_append, tablePass_cons]
  refine not_mem_tablePass (by decide) ?_
  exact not_mem_litPass_removed (by decide) _

theorem stagesLate_not_mem {x : Char} (hE : x ∉ (['ʲ', 'j', 'ː', 'ɫ'] : Buf)) :
    ∀ {l : Buf}, x ∉ l → x ∉ stagesLate l := by
  have hsub : ∀ (E : Buf), E ⊆ (['ʲ', 'j', 'ː', 'ɫ'] : Buf) → x ∉ E :=
    fun E hs hh => hE (hs hh)
  intro l hl
  simp only [stagesLate]
  refine not_mem_rewrite hf_darkLM ?_ (hsub _ (by decide))
  refine not_mem_rewrite hf_palLenM ?_ (hsub _ (by decide))
  refine not_mem_rewrite (E := [])
    (fun l n r h c hc => Or.inl (hf_stress6M l n r h c hc)) ?_ (hsub [] (by decide))
  refine not_mem_rewrite (E := [])
    (fun l n r h c hc => Or.inl (hf_stress5M l n r h c hc)) ?_ (hsub [] (by decide))
  refine not_mem_rewrite hf_stress4bM ?_ (hsub _ (by decide))
  refine not_mem_rewrite hf_stress4aM ?_ (hsub _ (by decide))
  refine not_mem_rewrite hf_onsetM ?_ (hsub _ (by decide))
  refine not_mem_rewrite (E := [])
    (fun l n r h c hc => Or.inl (hf_stress2M l n r h c hc)) ?_ (hsub [] (by decide))
  exact not_mem_rewrite (E := [])
    (fun l n r h c hc => Or.inl (hf_stress1M l n r h c hc)) hl (hsub [] (by decide))

theorem stagesMid_not_mem {x : Char}
    (hE : x ∉ (['u', breve, 'w', 'ˈ', 'ˌ', 'ʍ', 'i'] : Buf)) :
    ∀ {l : Buf}, x ∉ l → x ∉ stagesMid l := by
  have hsub : ∀ (E : Buf), E ⊆ (['u', breve, 'w', 'ˈ', 'ˌ', 'ʍ', 'i'] : Buf) → x ∉ E :=
    fun E hs hh => hE (hs hh)
  intro l hl
  simp only [stagesMid]
  refine not_mem_rewrite hf_jInitM ?_ (hsub _ (by decide))
  refine not_mem_rewrite hf_jCodaM ?_ (hsub _ (by decide))
  refine not_mem_rewrite hf_vhM ?_ (hsub _ (by decide))
  refine not_mem_rewrite hf_vwM ?_ (hsub _ (by decide))
  exact not_mem_rewrite hf_vCodaM hl (hsub _ (by decide))

theorem stagesB_not_mem {x : Char}
    (hE : x ∉ (['⁀', 'ʲ', 'i', 'ː', 'ˈ', 'ˌ', 's', 't', tie, 'd', 'z', 'ɐ', 'ʊ', 'e',
      'o'] : Buf))
    (hv : ∀ p ∈ voicing, x ∉ p.2)
    (hhu : ∀ p ∈ hushLits, x ∉ p.2) (hhi : ∀ p ∈ hissLits, x ∉ p.2)
    {ca : Bool} {l : Buf}
    (hcore : x ∉ tablePass charMap3 (tablePass charMap2 (tablePass charMap1 l))) :
    x ∉ stagesB ca l := by
  have hsub : ∀ (E : Buf),
      E ⊆ (['⁀', 'ʲ', 'i', 'ː', 'ˈ', 'ˌ', 's', 't', tie, 'd', 'z', 'ɐ', 'ʊ', 'e',
        'o'] : Buf) → x ∉ E :=
    fun E hs hh => hE (hs hh)
  simp only [stagesB]
  refine not_mem_rewrite (hf_redM 'ɛ' 'e') ?_ (hsub _ (by decide))
  refine not_mem_rewrite hf_oM ?_ (hsub _ (by decide))
  refine not_mem_rewrite (hf_redM 'u' 'ʊ') ?_ (hsub _ (by decide))
  refine not_mem_rewrite (hf_redM 'a' 'ɐ') ?_ (hsub _ (by decide))
  refine not_mem_rewrite hf_exPalM ?_ (hsub _ (by decide))
  refine not_mem_tablePass hhi ?_
  refine not_mem_tablePass hhu ?_
  refine not_mem_litPass ?_ (hsub _ (by decide))
  refine not_mem_litPass ?_ (hsub _ (by decide))
  refine not_mem_rewrite (hf_affDotM _) ?_ (hsub _ (by decide))
  refine not_mem_rewrite (hf_affDotM _) ?_ (hsub _ (by decide))
  refine not_mem_rewrite (hf_softAffLitM _) ?_ (hsub _ (by decide))
  refine not_mem_rewrite (hf_softAffLitM _) ?_ (hsub _ (by decide))
  refine not_mem_rewrite hf_softDotM ?_ (hsub _ (by decide))
  refine not_mem_voicingFold hv ?_
  refine not_mem_rewrite hf_stsjM ?_ (hsub _ (by decide))
  refine not_mem_litPass ?_ (hsub _ (by decide))
  refine not_mem_rewrite hf_palatJM ?_ (hsub _ (by decide))
  refine not_mem_rewrite hf_palatIM ?_ (hsub _ (by decide))
  refine not_mem_ite_monoM _ (hsub _ (by decide)) ?_
  exact not_mem_rewrite (E := [])
    (fun l n r h c hc => Or.inl (hf_stressSwapM l n r h c hc)) hcore (by simp)

theorem processToken_no_tang (ca : Bool) (tok : Buf) : '⁀' ∉ processToken ca tok := by
  simp only [processToken]
  refine stagesLate_not_mem (by decide) ?_
  refine not_mem_filter_of ?_
  refine stagesMid_not_mem (by decide) ?_
  simp [List.mem_filter]

theorem processToken_no_pct (ca : Bool) (tok : Buf) : '%' ∉ processToken ca tok := by
  simp only [processToken]
  refine stagesLate_not_mem (by decide) ?_
  simp [List.mem_filter]

theorem processToken_no_apos (ca : Bool) (tok : Buf) : apos ∉ processToken ca tok := by
  simp only [processToken]
  refine stagesLate_not_mem (by decide) ?_
  refine not_mem_filter_of ?_
  refine stagesMid_not_mem (by decide) ?_
  refine not_mem_filter_of ?_
  refine stagesB_not_mem (by decide) (by decide) (by decide) (by decide) ?_
  refine not_mem_tablePass (by decide) ?_
  refine not_mem_tablePass (by decide) ?_
  refine not_mem_tablePass (by decide) ?_
  exact apos_removed _

theorem processToken_no_rsq (ca : Bool) (tok : Buf) : '’' ∉ processToken ca tok := by
  simp only [processToken]
  refine stagesLate_not_mem (by decide) ?_
  refine not_mem_filter_of ?_
  refine stagesMid_not_mem (by decide) ?_
  refine not_mem_filter_of ?_
  refine stagesB_not_mem (by decide) (by decide) (by decide) (by decide) ?_
  exact rsq_not_mem_charMap3 _

theorem mem_joinSpace : ∀ {L : List Buf} {c : Char},
    c ∈ joinSpace L → c = ' ' ∨ ∃ b ∈ L, c ∈ b := by
  intro L
  induction L with
  | nil => intro c h; simp [joinSpace] at h
  | cons b bs ih =>
    intro c h
    cases bs with
    | nil =>
      right
      exact ⟨b, by simp, h⟩
    | cons b2 bs2 =>
      rw [show joinSpace (b :: b2 :: bs2) = b ++ ' ' :: joinSpace (b2 :: bs2) from rfl] at h
      rw [List.mem_append] at h
      rcases h with h | h
      · exact Or.inr ⟨b, by simp, h⟩
      · rcases List.mem_cons.mp h with h | h
        · exact Or.inl h
        · rcases ih h with h | ⟨b', hb', hcb'⟩
          · exact Or.inl h
          · exact Or.inr ⟨b', List.mem_cons_of_mem _ hb', hcb'⟩

theorem not_mem_ipaBody {x : Char} (hsp : x ≠ ' ')
    (hproc : ∀ (ca : Bool) (tok : Buf), x ∉ processToken ca tok)
    (t : Buf) (ca : Bool) : x ∉ ipaBody t ca := by
  intro hmem
  have h1 := List.mem_of_mem_filter hmem
  rcases mem_joinSpace h1 with h | ⟨b, hb, hcb⟩
  · exact hsp h
  · rw [List.mem_map] at hb
    obtain ⟨tok, _, rfl⟩ := hb
    exact hproc ca tok hcb

/-- C3: for every input buffer (including inputs that themselves contain
`#`, `%` or `⁀`) and flag on which `ipa` returns a result, the returned
buffer contains no boundary sentinel `#`, no apostrophe placeholder `%`
and no monosyllabic-stress marker `⁀`: `#` is removed by the final filter,
and no rule of the pipeline ever writes `%` or `⁀` after the stages that
remove them. -/
theorem c3_no_internal_marks (text : Buf) (ca : Bool) (out : Buf)
    (h : ipa text ca = Except.ok out) :
    '#' ∉ out ∧ '%' ∉ out ∧ '⁀' ∉ out := by
  simp only [ipa] at h
  split at h
  · exact Except.noConfusion h
  · cases h
    refine ⟨?_, ?_, ?_⟩
    · intro hm
      have h2 := (List.mem_filter.mp hm).2
      simp at h2
    · exact not_mem_ipaBody (by decide) processToken_no_pct _ _
    · exact not_mem_ipaBody (by decide) processToken_no_tang _ _

theorem c3_witness :
    ipa "а".data false = Except.ok ['ɐ'] ∧
      ('#' ∉ (['ɐ'] : Buf) ∧ '%' ∉ (['ɐ'] : Buf) ∧ '⁀' ∉ (['ɐ'] : Buf)) :=
  ⟨rfl, c3_no_internal_marks "а".data false ['ɐ'] rfl⟩

/-- C10 counterexample: the ASCII apostrophe is NOT deleted without a
trace.  It is remapped to the internal placeholder `%`, which stays in the
buffer through the phonemic stages before being removed: the
excessive-palatalization rule palatalizes `т` across it, so `т'ь` yields
`tʲʲ` while `ть` yields `tʲ`. -/
theorem c10_counterexample :
    ipa ['т', apos, 'ь'] false = Except.ok "tʲʲ".data ∧
      ipa "ть".data false = Except.ok "tʲ".data ∧
      ("tʲʲ".data : Buf) ≠ "tʲ".data :=
  ⟨rfl, rfl, by decide⟩

/-- C10 (amended): for every input on which `ipa` returns, neither the
ASCII apostrophe `'` (replaced by the placeholder `%`, later removed) nor
the typographic apostrophe `’` (rewritten to `j` by the character map)
occurs in the output; and `’` is transcribed as the phone `j`
(`ipa "’а" false = ok "jɐ"`). -/
theorem c10_apostrophes (text : Buf) (ca : Bool) (out : Buf)
    (h : ipa text ca = Except.ok out) :
    (apos ∉ out ∧ '’' ∉ out) ∧ ipa "’а".data false = Except.ok "jɐ".data := by
  constructor
  · simp only [ipa] at h
    split at h
    · exact Except.noConfusion h
    · cases h
      exact ⟨not_mem_ipaBody (by decide) processToken_no_apos _ _,
        not_mem_ipaBody (by decide) processToken_no_rsq _ _⟩
  · rfl

theorem c10_witness :
    (apos ∉ ("tɐ".data : Buf) ∧ '’' ∉ ("tɐ".data : Buf)) ∧
      ipa "’а".data false = Except.ok "jɐ".data :=
  c10_apostrophes ['т', 'а', apos] false "tɐ".data rfl

end IpaUk
